import Mathlib

/-
  Verification development for the job-matcher text-normalization pipeline.

  Strings are modelled as `List Char` (JS strings; all operations here are
  code-point based, which agrees with the UTF-16 based source on every point
  the theorems touch).  Every function is translated from `src/lib/normalizers.ts`,
  `src/app/api/match/route.ts` and `src/app/api/rewrite-resume/route.ts`,
  keeping the source names.  Recursive functions are written with structural
  recursion (explicit accumulators replacing regex scans) so that all of them
  evaluate by `decide` / `rfl`; each is annotated with the regex it implements.
-/

namespace JobMatcher

abbrev Str := List Char

def lit (s : String) : Str := s.data

/-- JS regex `\s` / `String.prototype.trim` whitespace set (ECMA-262 WhiteSpace
    plus LineTerminator), by code point. -/
def isJsWs (c : Char) : Bool :=
  c.toNat == 32 || c.toNat == 9 || c.toNat == 10 || c.toNat == 11 ||
  c.toNat == 12 || c.toNat == 13 || c.toNat == 0xA0 || c.toNat == 0x1680 ||
  (0x2000 ≤ c.toNat && c.toNat ≤ 0x200A) || c.toNat == 0x2028 ||
  c.toNat == 0x2029 || c.toNat == 0x202F || c.toNat == 0x205F ||
  c.toNat == 0x3000 || c.toNat == 0xFEFF

/-- Model of `s.trim()`: drop trailing whitespace (via a reverse), then
    leading whitespace. -/
def trimStr (l : Str) : Str :=
  (l.reverse.dropWhile isJsWs).reverse.dropWhile isJsWs

/-- Flush a pending (reversed) whitespace run: a run of length ≥ 2 collapses to
    one space, a single whitespace char is kept as is (regex `\s{2,}` does not
    touch it). -/
def flushWs (pend : Str) : Str :=
  match pend with
  | [] => []
  | [c] => [c]
  | _ => [' ']

/-- Scanner for `s.replace(/\s{2,}/g, " ")`: `pend` is the (reversed) run of
    whitespace characters currently being read. -/
def cwGo (pend : Str) : Str → Str
  | [] => flushWs pend
  | c :: rest =>
    if isJsWs c then cwGo (c :: pend) rest
    else flushWs pend ++ c :: cwGo [] rest

/-- `s.replace(/\s{2,}/g, " ")`. -/
def collapseWs (l : Str) : Str := cwGo [] l

/-- The bullet/dash glyphs `[•–—│]` replaced by `-` in `asciiSafe`. -/
def isAsciiGlyph (c : Char) : Bool :=
  c == '•' || c == '–' || c == '—' || c == '│'

def glyphMap (c : Char) : Char := if isAsciiGlyph c then '-' else c

/-- `String.prototype.normalize("NFKD")`, modelled per code point.  Unicode NFKD
    is the identity on every ASCII code point (no ASCII character has a
    decomposition); that is the only property the theorems below use.  Non-ASCII
    code points are mapped through a representative compatibility-decomposition
    table (defaulting to no decomposition). -/
def nfkdChar (c : Char) : Str :=
  if c.val ≤ 0x7F then [c]
  else if c == 'é' then ['e', Char.ofNat 0x301]
  else if c == 'è' then ['e', Char.ofNat 0x300]
  else if c == 'ü' then ['u', Char.ofNat 0x308]
  else if c == 'ﬁ' then ['f', 'i']
  else if c == '²' then ['2']
  else if c == Char.ofNat 0x2460 then ['1']
  else [c]

/-- Model of `asciiSafe` from `normalizers.ts`:
    `s.replace(/[•–—│]/g,"-").normalize("NFKD").replace(/[^\x00-\x7F]/g,"")
      .replace(/\s{2,}/g," ").trim()`. -/
def asciiSafe (l : Str) : Str :=
  trimStr (collapseWs ((((l.map glyphMap).flatMap nfkdChar).filter
    (fun c => c.val ≤ 0x7F))))

def allAscii (l : Str) : Bool := l.all (fun c => c.val ≤ 0x7F)

/-- Adjacent characters are never both whitespace (the post-condition of the
    `\s{2,}` collapse). -/
def noWsPair (l : Str) : Prop :=
  l.Chain' (fun a b => ¬(isJsWs a = true ∧ isJsWs b = true))

theorem flushWs_length (pend : Str) : (flushWs pend).length ≤ 1 := by
  cases pend with
  | nil => simp [flushWs]
  | cons c rest => cases rest <;> simp [flushWs]

theorem mem_flushWs {x : Char} {pend : Str} (h : x ∈ flushWs pend) :
    x ∈ pend ∨ x = ' ' := by
  cases pend with
  | nil => simp [flushWs] at h
  | cons c rest =>
    cases rest with
    | nil => simp [flushWs] at h; simp [h]
    | cons d rest' => simp [flushWs] at h; simp [h]

theorem mem_cwGo {x : Char} :
    ∀ (l pend : Str), x ∈ cwGo pend l → x ∈ pend ∨ x ∈ l ∨ x = ' ' := by
  intro l
  induction l with
  | nil =>
    intro pend h
    rcases mem_flushWs (by simpa [cwGo] using h) with h' | h'
    · exact Or.inl h'
    · exact Or.inr (Or.inr h')
  | cons c rest ih =>
    intro pend h
    by_cases hws : isJsWs c
    · rcases ih (c :: pend) (by simpa [cwGo, hws] using h) with h' | h' | h'
      · rcases List.mem_cons.mp h' with h'' | h''
        · exact Or.inr (Or.inl (by simp [h'']))
        · exact Or.inl h''
      · exact Or.inr (Or.inl (List.mem_cons_of_mem _ h'))
      · exact Or.inr (Or.inr h')
    · have h0 : x ∈ flushWs pend ∨ x = c ∨ x ∈ cwGo [] rest := by
        simpa [cwGo, hws] using h
      rcases h0 with h' | h' | h'
      · rcases mem_flushWs h' with h'' | h''
        · exact Or.inl h''
        · exact Or.inr (Or.inr h'')
      · exact Or.inr (Or.inl (by simp [h']))
      · rcases ih [] h' with h3 | h3 | h3
        · simp at h3
        · exact Or.inr (Or.inl (List.mem_cons_of_mem _ h3))
        · exact Or.inr (Or.inr h3)

theorem flushWs_ws {pend : Str} (h : ∀ x ∈ pend, isJsWs x = true) :
    ∀ x ∈ flushWs pend, isJsWs x = true := by
  intro x hx
  rcases mem_flushWs hx with h' | h'
  · exact h x h'
  · subst h'; rfl

theorem cwGo_noWsPair :
    ∀ (l pend : Str), noWsPair (cwGo pend l) := by
  intro l
  induction l with
  | nil =>
    intro pend
    have := flushWs_length pend
    unfold noWsPair
    match hf : flushWs pend with
    | [] => simp [cwGo, hf]
    | [c] => simp [cwGo, hf]
    | c :: d :: rest => rw [hf] at this; simp at this
  | cons c rest ih =>
    intro pend
    by_cases hws : isJsWs c
    · simpa [cwGo, hws] using ih (c :: pend)
    · show (cwGo pend (c :: rest)).Chain' _
      have hdef : cwGo pend (c :: rest) = flushWs pend ++ c :: cwGo [] rest := by
        simp [cwGo, hws]
      rw [hdef, List.chain'_append]
      refine ⟨?_, ?_, ?_⟩
      · have := flushWs_length pend
        match hf : flushWs pend with
        | [] => simp
        | [x] => simp
        | x :: y :: r => rw [hf] at this; simp at this
      · rw [List.chain'_cons']
        exact ⟨fun y _ => fun hcon => absurd hcon.1 (by simpa using hws), ih []⟩
      · intro x _ y hy
        simp at hy
        subst hy
        exact fun hcon => absurd hcon.2 (by simpa using hws)

theorem cwGo_eq_self : ∀ (l : Str), noWsPair l → cwGo [] l = l := by
  intro l
  induction l with
  | nil => intro _; rfl
  | cons c rest ih =>
    intro h
    by_cases hws : isJsWs c
    · match rest, h with
      | [], _ => simp [cwGo, hws, flushWs]
      | d :: rest', h =>
        have hpair := (List.chain'_cons.mp h).1
        have hd : ¬ isJsWs d = true := fun hd => hpair ⟨hws, hd⟩
        have htail : noWsPair (d :: rest') := (List.chain'_cons.mp h).2
        have : cwGo [] (d :: rest') = d :: cwGo [] rest' := by
          simp [cwGo, hd, flushWs]
        have hih := ih htail
        rw [this] at hih
        have hrest : cwGo [] rest' = rest' := by
          exact (List.cons.injEq _ _ _ _ ▸ hih).2
        simp [cwGo, hws, hd, flushWs, hrest]
    · have htail : noWsPair rest := (List.chain'_cons'.mp h).2
      simp [cwGo, hws, flushWs, ih htail]

theorem noWsPair_collapseWs (l : Str) : noWsPair (collapseWs l) :=
  cwGo_noWsPair l []

theorem dropWhile_dropWhile_same {p : Char → Bool} (l : Str) :
    (l.dropWhile p).dropWhile p = l.dropWhile p := by
  induction l with
  | nil => rfl
  | cons c rest ih =>
    by_cases h : p c
    · simp [List.dropWhile_cons, h, ih]
    · simp [List.dropWhile_cons, h]

theorem head?_dropWhile {p : Char → Bool} (l : Str) :
    ∀ x ∈ (l.dropWhile p).head?, ¬ p x = true := by
  induction l with
  | nil => simp
  | cons c rest ih =>
    by_cases h : p c
    · simpa [List.dropWhile_cons, h] using ih
    · simp [List.dropWhile_cons, h]

theorem getLast?_of_suffix {l s : Str} (hs : s <:+ l) (hne : s ≠ []) :
    s.getLast? = l.getLast? := by
  obtain ⟨t, ht⟩ := hs
  subst ht
  rw [List.getLast?_append]
  match hsl : s.getLast? with
  | some x => rfl
  | none => exact absurd (List.getLast?_eq_none_iff.mp hsl) hne

theorem trimStr_head (l : Str) : ∀ x ∈ (trimStr l).head?, ¬ isJsWs x = true :=
  head?_dropWhile _

theorem trimStr_getLast (l : Str) :
    ∀ x ∈ (trimStr l).getLast?, ¬ isJsWs x = true := by
  intro x hx
  unfold trimStr at hx
  set C := (l.reverse.dropWhile isJsWs).reverse with hC
  by_cases hE : C.dropWhile isJsWs = []
  · rw [hE] at hx; simp at hx
  · have hsuf : C.dropWhile isJsWs <:+ C := List.dropWhile_suffix _
    have hlast : (C.dropWhile isJsWs).getLast? = C.getLast? :=
      getLast?_of_suffix hsuf hE
    rw [hlast] at hx
    have : C.getLast? = (l.reverse.dropWhile isJsWs).head? := by
      rw [hC, List.getLast?_reverse]
    rw [this] at hx
    exact head?_dropWhile _ x hx

theorem dropWhile_eq_self_of_head {p : Char → Bool} {l : Str}
    (h : ∀ x ∈ l.head?, ¬ p x = true) : l.dropWhile p = l := by
  cases l with
  | nil => rfl
  | cons c rest =>
    have : ¬ p c = true := h c (by simp)
    simp [List.dropWhile_cons, this]

theorem trimStr_eq_self {l : Str} (h1 : ∀ x ∈ l.head?, ¬ isJsWs x = true)
    (h2 : ∀ x ∈ l.getLast?, ¬ isJsWs x = true) : trimStr l = l := by
  unfold trimStr
  have hrev : l.reverse.dropWhile isJsWs = l.reverse := by
    apply dropWhile_eq_self_of_head
    intro x hx
    rw [List.head?_reverse] at hx
    exact h2 x hx
  rw [hrev, List.reverse_reverse]
  exact dropWhile_eq_self_of_head h1

theorem trimStr_idem (l : Str) : trimStr (trimStr l) = trimStr l :=
  trimStr_eq_self (trimStr_head l) (trimStr_getLast l)

theorem trimStr_sublist (l : Str) : (trimStr l).Sublist l := by
  unfold trimStr
  have h1 : (l.reverse.dropWhile isJsWs) <:+ l.reverse := List.dropWhile_suffix _
  have h2 : ((l.reverse.dropWhile isJsWs).reverse).Sublist l := by
    have hrev : ((l.reverse.dropWhile isJsWs).reverse).Sublist l.reverse.reverse :=
      List.reverse_sublist.mpr h1.sublist
    simpa using hrev
  exact ((List.dropWhile_suffix _).sublist).trans h2

theorem noWsPair_reverse {l : Str} (h : noWsPair l) : noWsPair l.reverse := by
  unfold noWsPair at *
  rw [List.chain'_reverse]
  exact h.imp (fun a b hab hcon => hab ⟨hcon.2, hcon.1⟩)

theorem noWsPair_trimStr {l : Str} (h : noWsPair l) : noWsPair (trimStr l) := by
  unfold trimStr
  have h1 : noWsPair (l.reverse.dropWhile isJsWs) :=
    (noWsPair_reverse h).suffix (List.dropWhile_suffix _)
  have h2 : noWsPair (l.reverse.dropWhile isJsWs).reverse := noWsPair_reverse h1
  exact h2.suffix (List.dropWhile_suffix _)

theorem glyphMap_of_ascii {c : Char} (h : c.val ≤ 0x7F) : glyphMap c = c := by
  unfold glyphMap
  by_cases hg : isAsciiGlyph c = true
  · unfold isAsciiGlyph at hg
    simp only [Bool.or_eq_true, beq_iff_eq] at hg
    rcases hg with (((h1 | h1) | h1) | h1) <;> subst h1 <;> exact absurd h (by decide)
  · simp [hg]

theorem nfkdChar_of_ascii {c : Char} (h : c.val ≤ 0x7F) : nfkdChar c = [c] := by
  unfold nfkdChar
  simp [h]

theorem flatMap_eq_self {f : Char → Str} :
    ∀ {l : Str}, (∀ c ∈ l, f c = [c]) → l.flatMap f = l := by
  intro l
  induction l with
  | nil => intro _; rfl
  | cons c rest ih =>
    intro h
    have hc : f c = [c] := h c (by simp)
    have hrest := ih (fun x hx => h x (List.mem_cons_of_mem _ hx))
    simp [List.flatMap_cons, hc, hrest]

theorem map_eq_self_of_mem {f : Char → Char} :
    ∀ {l : Str}, (∀ c ∈ l, f c = c) → l.map f = l := by
  intro l
  induction l with
  | nil => intro _; rfl
  | cons c rest ih =>
    intro h
    have hc : f c = c := h c (by simp)
    have hrest := ih (fun x hx => h x (List.mem_cons_of_mem _ hx))
    simp [hc, hrest]

theorem mem_asciiSafe_ascii {l : Str} {c : Char} (hc : c ∈ asciiSafe l) :
    c.val ≤ 0x7F := by
  unfold asciiSafe at hc
  have h1 : c ∈ collapseWs (((l.map glyphMap).flatMap nfkdChar).filter
      (fun c => c.val ≤ 0x7F)) := (trimStr_sublist _).subset hc
  rcases mem_cwGo _ [] h1 with h | h | h
  · simp at h
  · have := (List.mem_filter.mp h).2
    exact of_decide_eq_true this
  · subst h; decide

theorem allAscii_asciiSafe (l : Str) : allAscii (asciiSafe l) = true := by
  unfold allAscii
  rw [List.all_eq_true]
  intro c hc
  exact decide_eq_true (mem_asciiSafe_ascii hc)

/-- C1: `asciiSafe` is idempotent, and every code point of its output is at
    most `0x7F`, for every input string (including the empty string and
    strings of only non-ASCII characters). -/
theorem asciiSafe_idem_and_ascii (l : Str) :
    asciiSafe (asciiSafe l) = asciiSafe l ∧ allAscii (asciiSafe l) = true := by
  refine ⟨?_, allAscii_asciiSafe l⟩
  have hascii : ∀ c ∈ asciiSafe l, c.val ≤ 0x7F := fun c hc => mem_asciiSafe_ascii hc
  have hmap : (asciiSafe l).map glyphMap = asciiSafe l :=
    map_eq_self_of_mem (fun c hc => glyphMap_of_ascii (hascii c hc))
  have hflat : (asciiSafe l).flatMap nfkdChar = asciiSafe l := by
    apply flatMap_eq_self
    intro c hc
    exact nfkdChar_of_ascii (hascii c hc)
  have hfilter : (asciiSafe l).filter (fun c => c.val ≤ 0x7F) = asciiSafe l := by
    rw [List.filter_eq_self]
    intro c hc
    exact decide_eq_true (hascii c hc)
  have hnoPair : noWsPair (asciiSafe l) := by
    unfold asciiSafe
    exact noWsPair_trimStr (noWsPair_collapseWs _)
  have hcw : collapseWs (asciiSafe l) = asciiSafe l := cwGo_eq_self _ hnoPair
  have htrim : trimStr (asciiSafe l) = asciiSafe l := by
    conv_lhs => rw [show asciiSafe l = trimStr (collapseWs (((l.map glyphMap).flatMap
      nfkdChar).filter (fun c => c.val ≤ 0x7F))) from rfl]
    exact trimStr_idem _
  have hstep : asciiSafe (asciiSafe l) = trimStr (collapseWs
      ((((asciiSafe l).map glyphMap).flatMap nfkdChar).filter
        (fun c => c.val ≤ 0x7F))) := rfl
  rw [hstep, hmap, hflat, hfilter, hcw, htrim]

/-! Keyword tokenizer and scorer, from `src/app/api/match/route.ts`. -/

/-- First-occurrence deduplication with an explicit seen set, modelling the
    iteration order of `Array.from(new Set(xs))`. -/
def dedupeSeen {α : Type} [DecidableEq α] (seen : List α) : List α → List α
  | [] => []
  | a :: rest =>
    if a ∈ seen then dedupeSeen seen rest else a :: dedupeSeen (a :: seen) rest

def dedupFirst {α : Type} [DecidableEq α] (l : List α) : List α := dedupeSeen [] l

/-- Model of `String.prototype.toLowerCase` on the ASCII range (the only
    case mapping that can produce characters matched by `[a-z0-9+]`). -/
def lowerChar (c : Char) : Char :=
  if 65 ≤ c.toNat ∧ c.toNat ≤ 90 then Char.ofNat (c.toNat + 32) else c

def isTokChar (c : Char) : Bool :=
  ('a' ≤ c && c ≤ 'z') || ('0' ≤ c && c ≤ '9') || c == '+'

/-- Scanner extracting the maximal runs matched by `/[a-z0-9+]+/g`; `cur` is
    the (reversed) run currently being read. -/
def tokGo (cur : Str) : Str → List Str
  | [] => if cur = [] then [] else [cur.reverse]
  | c :: rest =>
    if isTokChar c then tokGo (c :: cur) rest
    else if cur = [] then tokGo [] rest
    else cur.reverse :: tokGo [] rest

/-- Stop-word set from `match/route.ts` (`STOP_WORDS`). -/
def STOP_WORDS : List Str :=
  [lit (r"and"), lit (r"or"), lit (r"the"), lit (r"a"), lit (r"an"),
   lit (r"for"), lit (r"with"), lit (r"from"), lit (r"that"), lit (r"this"),
   lit (r"your"), lit (r"our"), lit (r"their"), lit (r"to"), lit (r"of"),
   lit (r"in"), lit (r"on"), lit (r"by"), lit (r"is"), lit (r"are"),
   lit (r"be"), lit (r"as"), lit (r"at"), lit (r"we"), lit (r"you"),
   lit (r"will"), lit (r"can"), lit (r"able"), lit (r"have"), lit (r"has"),
   lit (r"into"), lit (r"within"), lit (r"across"), lit (r"about"),
   lit (r"its"), ['i', 't', Char.ofNat 39, 's']]

/-- Model of `tokenize`: lower-case, extract `[a-z0-9+]+` runs, keep tokens of
    length > 2 that are not stop words. -/
def tokenize (text : Str) : List Str :=
  (tokGo [] (text.map lowerChar)).filter
    (fun t => 2 < t.length ∧ t ∉ STOP_WORDS)

/-- Frequency table in first-insertion order, modelling the `Map` built by
    `extractTopKeywords` (JS `Map` iterates in insertion order, which is the
    order of first occurrence). -/
def countsList (toks : List Str) : List (Str × ℕ) :=
  (dedupFirst toks).map (fun s => (s, toks.count s))

/-- Stable insertion (descending by count): the inserted element comes from
    earlier in the original list, so it goes before every entry with a count
    less than or equal to its own. -/
def insertDesc (p : Str × ℕ) : List (Str × ℕ) → List (Str × ℕ)
  | [] => [p]
  | q :: rest => if q.2 ≤ p.2 then p :: q :: rest else q :: insertDesc p rest

/-- Stable sort by descending count, modelling the ES2019-stable
    `Array.prototype.sort((a, b) => b[1] - a[1])` (any two stable sorts by the
    same key agree). -/
def sortDesc (l : List (Str × ℕ)) : List (Str × ℕ) := l.foldr insertDesc []

/-- Model of `extractTopKeywords(text, limit)`. -/
def extractTopKeywords (text : Str) (limit : ℕ) : List Str :=
  ((sortDesc (countsList (tokenize text))).take limit).map Prod.fst

structure KeywordStats where
  overlapTerms : List Str
  overlapCount : ℕ
  keywordScore : ℚ
  percent : ℤ
deriving DecidableEq, Repr

/-- Model of `computeKeywordStats(jobKeywords, resumeKeywords)`.  JS number
    arithmetic is modelled over `ℚ` (exact); `Math.round` is `round` (both are
    floor of `x + 1/2` on the non-negative values that occur here). -/
def computeKeywordStats (jobKeywords resumeKeywords : List Str) : KeywordStats :=
  if jobKeywords = [] then ⟨[], 0, 0, 0⟩
  else
    let jobSet := dedupFirst jobKeywords
    let resumeSet := dedupFirst resumeKeywords
    let overlapTerms := jobSet.filter (fun k => k ∈ resumeSet)
    let overlapCount := overlapTerms.length
    let percent := round (min 100 ((overlapCount : ℚ) / (jobSet.length : ℚ) * 100))
    let keywordScore :=
      min 100 ((overlapCount : ℚ) / (max 10 (jobSet.length : ℚ)) * 120)
    ⟨overlapTerms, overlapCount, keywordScore, percent⟩

theorem round_le_round {x y : ℚ} (h : x ≤ y) : round x ≤ round y := by
  rw [round_eq, round_eq]
  exact Int.floor_le_floor (by linarith)

theorem round_nonneg_of_nonneg {x : ℚ} (h : 0 ≤ x) : 0 ≤ round x := by
  rw [round_eq]
  exact Int.le_floor.mpr (by push_cast; linarith)

/-- C4: `computeKeywordStats` returns `percent = round(min(100,
    overlapCount/|jobSet| * 100))` and `keywordScore = min(100,
    (overlapCount / max(10, |jobSet|)) * 120)`, both within `[0, 100]`, and
    returns all-zero outputs (with empty `overlapTerms`) on an empty
    job-keyword list. -/
theorem computeKeywordStats_spec (J R : List Str) :
    (0 ≤ (computeKeywordStats J R).percent ∧ (computeKeywordStats J R).percent ≤ 100) ∧
    (0 ≤ (computeKeywordStats J R).keywordScore ∧
      (computeKeywordStats J R).keywordScore ≤ 100) ∧
    (computeKeywordStats J R).percent =
      round (min 100 (((computeKeywordStats J R).overlapCount : ℚ) /
        ((dedupFirst J).length : ℚ) * 100)) ∧
    (computeKeywordStats J R).keywordScore =
      min 100 (((computeKeywordStats J R).overlapCount : ℚ) /
        (max 10 ((dedupFirst J).length : ℚ)) * 120) ∧
    computeKeywordStats [] R = ⟨[], 0, 0, 0⟩ := by
  have hmin_nonneg : ∀ x : ℚ, 0 ≤ x → 0 ≤ min 100 x := by
    intro x hx
    exact le_min (by norm_num) hx
  by_cases hJ : J = []
  · subst hJ
    refine ⟨⟨le_refl _, by norm_num [computeKeywordStats]⟩, ⟨le_refl _, ?_⟩, ?_, ?_, rfl⟩
    · simp [computeKeywordStats]
    · show (0 : ℤ) = round (min 100 ((((0:ℕ) : ℚ)) / (((dedupFirst ([] : List Str)).length : ℚ)) * 100))
      norm_num [computeKeywordStats, dedupFirst, dedupeSeen]
    · show (0 : ℚ) = min 100 ((((0:ℕ) : ℚ)) / (max 10 (((dedupFirst ([] : List Str)).length : ℚ)) ) * 120)
      norm_num [computeKeywordStats, dedupFirst, dedupeSeen]
  · have hq_nonneg : (0:ℚ) ≤
        (((dedupFirst J).filter (fun k => k ∈ dedupFirst R)).length : ℚ) /
          ((dedupFirst J).length : ℚ) * 100 := by positivity
    have hr_nonneg : (0:ℚ) ≤
        (((dedupFirst J).filter (fun k => k ∈ dedupFirst R)).length : ℚ) /
          (max 10 ((dedupFirst J).length : ℚ)) * 120 := by positivity
    have hdef : computeKeywordStats J R =
        ⟨(dedupFirst J).filter (fun k => k ∈ dedupFirst R),
         ((dedupFirst J).filter (fun k => k ∈ dedupFirst R)).length,
         min 100 ((((dedupFirst J).filter (fun k => k ∈ dedupFirst R)).length : ℚ) /
           (max 10 ((dedupFirst J).length : ℚ)) * 120),
         round (min 100 ((((dedupFirst J).filter (fun k => k ∈ dedupFirst R)).length : ℚ) /
           ((dedupFirst J).length : ℚ) * 100))⟩ := by
      simp [computeKeywordStats, hJ]
    refine ⟨⟨?_, ?_⟩, ⟨?_, ?_⟩, ?_, ?_, ?_⟩
    · rw [hdef]
      exact round_nonneg_of_nonneg (hmin_nonneg _ hq_nonneg)
    · rw [hdef]
      calc round (min 100 _) ≤ round (100 : ℚ) := round_le_round (min_le_left _ _)
        _ = 100 := by norm_num
    · rw [hdef]
      exact hmin_nonneg _ hr_nonneg
    · rw [hdef]
      exact min_le_left _ _
    · rw [hdef]
    · rw [hdef]
    · simp [computeKeywordStats]

theorem mem_dedupeSeen {α : Type} [DecidableEq α] :
    ∀ (l seen : List α) (x : α), x ∈ dedupeSeen seen l ↔ x ∈ l ∧ x ∉ seen := by
  intro l
  induction l with
  | nil => intro seen x; simp [dedupeSeen]
  | cons c rest ih =>
    intro seen x
    by_cases hc : c ∈ seen
    · rw [show dedupeSeen seen (c :: rest) = dedupeSeen seen rest by
        simp [dedupeSeen, hc]]
      rw [ih]
      constructor
      · rintro ⟨h1, h2⟩
        exact ⟨List.mem_cons_of_mem _ h1, h2⟩
      · rintro ⟨h1, h2⟩
        rcases List.mem_cons.mp h1 with h | h
        · exact absurd (h ▸ hc) h2
        · exact ⟨h, h2⟩
    · rw [show dedupeSeen seen (c :: rest) = c :: dedupeSeen (c :: seen) rest by
        simp [dedupeSeen, hc]]
      constructor
      · intro h
        rcases List.mem_cons.mp h with h | h
        · exact ⟨h ▸ List.mem_cons_self c rest, h ▸ hc⟩
        · have := (ih (c :: seen) x).mp h
          exact ⟨List.mem_cons_of_mem _ this.1,
            fun hx => this.2 (List.mem_cons_of_mem _ hx)⟩
      · rintro ⟨h1, h2⟩
        rcases List.mem_cons.mp h1 with h | h
        · exact h ▸ List.mem_cons_self c _
        · by_cases hxc : x = c
          · exact hxc ▸ List.mem_cons_self c _
          · exact List.mem_cons_of_mem _ ((ih (c :: seen) x).mpr
              ⟨h, fun hx => by
                rcases List.mem_cons.mp hx with h' | h'
                · exact hxc h'
                · exact h2 h'⟩)

theorem mem_dedupFirst {α : Type} [DecidableEq α] {l : List α} {x : α} :
    x ∈ dedupFirst l ↔ x ∈ l := by
  unfold dedupFirst
  rw [mem_dedupeSeen]
  simp

/-- Index of the first occurrence of `x` (the length of the list when `x` is
    absent). -/
def firstIdx {α : Type} [DecidableEq α] (x : α) : List α → ℕ
  | [] => 0
  | c :: rest => if c = x then 0 else firstIdx x rest + 1

theorem firstIdx_cons_self {α : Type} [DecidableEq α] (x : α) (l : List α) :
    firstIdx x (x :: l) = 0 := by simp [firstIdx]

theorem firstIdx_cons_ne {α : Type} [DecidableEq α] {x c : α} (l : List α)
    (h : c ≠ x) : firstIdx x (c :: l) = firstIdx x l + 1 := by
  simp [firstIdx, h]

theorem pairwise_dedupeSeen_firstIdx {α : Type} [DecidableEq α] :
    ∀ (l seen : List α),
      (dedupeSeen seen l).Pairwise (fun a b => firstIdx a l < firstIdx b l) := by
  intro l
  induction l with
  | nil => intro seen; simp [dedupeSeen]
  | cons c rest ih =>
    intro seen
    by_cases hc : c ∈ seen
    · rw [show dedupeSeen seen (c :: rest) = dedupeSeen seen rest by
        simp [dedupeSeen, hc]]
      refine (ih seen).imp_of_mem ?_
      intro a b ha hb hab
      have hane : c ≠ a := fun h =>
        ((mem_dedupeSeen rest seen a).mp ha).2 (h ▸ hc)
      have hbne : c ≠ b := fun h =>
        ((mem_dedupeSeen rest seen b).mp hb).2 (h ▸ hc)
      rw [firstIdx_cons_ne _ hane, firstIdx_cons_ne _ hbne]
      exact Nat.succ_lt_succ hab
    · rw [show dedupeSeen seen (c :: rest) = c :: dedupeSeen (c :: seen) rest by
        simp [dedupeSeen, hc]]
      rw [List.pairwise_cons]
      constructor
      · intro b hb
        have hbne : c ≠ b := fun h =>
          ((mem_dedupeSeen rest (c :: seen) b).mp hb).2
            (h ▸ List.mem_cons_self c seen)
        rw [firstIdx_cons_self, firstIdx_cons_ne _ hbne]
        exact Nat.succ_pos _
      · refine (ih (c :: seen)).imp_of_mem ?_
        intro a b ha hb hab
        have hane : c ≠ a := fun h =>
          ((mem_dedupeSeen rest (c :: seen) a).mp ha).2
            (h ▸ List.mem_cons_self c seen)
        have hbne : c ≠ b := fun h =>
          ((mem_dedupeSeen rest (c :: seen) b).mp hb).2
            (h ▸ List.mem_cons_self c seen)
        rw [firstIdx_cons_ne _ hane, firstIdx_cons_ne _ hbne]
        exact Nat.succ_lt_succ hab

theorem countsList_pairwise (toks : List Str) :
    (countsList toks).Pairwise
      (fun p q => firstIdx p.1 toks < firstIdx q.1 toks) := by
  unfold countsList
  rw [List.pairwise_map]
  exact pairwise_dedupeSeen_firstIdx toks []

theorem mem_countsList {toks : List Str} {p : Str × ℕ}
    (hp : p ∈ countsList toks) : p.2 = toks.count p.1 ∧ p.1 ∈ toks := by
  unfold countsList at hp
  rcases List.mem_map.mp hp with ⟨s, hs, hps⟩
  subst hps
  exact ⟨rfl, mem_dedupFirst.mp hs⟩

theorem mem_insertDesc {p x : Str × ℕ} :
    ∀ m, x ∈ insertDesc p m ↔ x = p ∨ x ∈ m := by
  intro m
  induction m with
  | nil => simp [insertDesc]
  | cons q rest ih =>
    by_cases hle : q.2 ≤ p.2
    · simp [insertDesc, hle]
    · simp only [insertDesc, if_neg hle, List.mem_cons, ih]
      tauto

theorem mem_sortDesc {x : Str × ℕ} : ∀ l, x ∈ sortDesc l ↔ x ∈ l := by
  intro l
  induction l with
  | nil => simp [sortDesc]
  | cons p rest ih =>
    show x ∈ insertDesc p (sortDesc rest) ↔ _
    rw [mem_insertDesc, ih]
    simp [eq_comm]

/-- Combined ordering for the stable descending sort: strictly larger count, or
    equal count with the tie-break relation `S`. -/
def keyRel (S : Str × ℕ → Str × ℕ → Prop) (p q : Str × ℕ) : Prop :=
  q.2 < p.2 ∨ (p.2 = q.2 ∧ S p q)

theorem insertDesc_pairwise {S : Str × ℕ → Str × ℕ → Prop} {p : Str × ℕ} :
    ∀ {m}, m.Pairwise (keyRel S) → (∀ q ∈ m, S p q) →
      (insertDesc p m).Pairwise (keyRel S) := by
  intro m
  induction m with
  | nil => intro _ _; simp [insertDesc]
  | cons q rest ih =>
    intro hm hS
    have hm' := List.pairwise_cons.mp hm
    by_cases hle : q.2 ≤ p.2
    · have hq : keyRel S p q := by
        rcases lt_or_eq_of_le hle with h | h
        · exact Or.inl h
        · exact Or.inr ⟨h.symm, hS q (List.mem_cons_self _ _)⟩
      rw [show insertDesc p (q :: rest) = p :: q :: rest by simp [insertDesc, hle]]
      rw [List.pairwise_cons]
      refine ⟨?_, hm⟩
      intro b hb
      rcases List.mem_cons.mp hb with h | h
      · exact h ▸ hq
      · rcases hm'.1 b h with hlt | ⟨heq, _⟩
        · rcases lt_or_eq_of_le (le_of_lt (lt_of_lt_of_le hlt hle)) with h2 | h2
          · exact Or.inl h2
          · exact Or.inr ⟨h2.symm, hS b (List.mem_cons_of_mem _ h)⟩
        · rcases lt_or_eq_of_le (le_of_eq_of_le heq.symm hle) with h2 | h2
          · exact Or.inl h2
          · exact Or.inr ⟨h2.symm, hS b (List.mem_cons_of_mem _ h)⟩
    · rw [show insertDesc p (q :: rest) = q :: insertDesc p rest by
        simp [insertDesc, hle]]
      rw [List.pairwise_cons]
      refine ⟨?_, ih hm'.2 (fun x hx => hS x (List.mem_cons_of_mem _ hx))⟩
      intro b hb
      rcases (mem_insertDesc _).mp hb with h | h
      · exact h ▸ Or.inl (lt_of_not_le hle)
      · exact hm'.1 b h

theorem sortDesc_pairwise {S : Str × ℕ → Str × ℕ → Prop} :
    ∀ {l}, l.Pairwise S → (sortDesc l).Pairwise (keyRel S) := by
  intro l
  induction l with
  | nil => intro _; simp [sortDesc]
  | cons p rest ih =>
    intro h
    have h' := List.pairwise_cons.mp h
    show (insertDesc p (sortDesc rest)).Pairwise (keyRel S)
    exact insertDesc_pairwise (ih h'.2)
      (fun q hq => h'.1 q ((mem_sortDesc rest).mp hq))

/-- C5: `extractTopKeywords(text, limit)` returns at most `limit` tokens, each
    of length > 2 and not a stop word, ordered by strictly descending frequency
    with ties broken by first occurrence in the tokenized text. -/
theorem extractTopKeywords_spec (text : Str) (limit : ℕ) :
    (extractTopKeywords text limit).length ≤ limit ∧
    (∀ s ∈ extractTopKeywords text limit, 2 < s.length ∧ s ∉ STOP_WORDS) ∧
    (extractTopKeywords text limit).Pairwise (fun a b =>
      (tokenize text).count b < (tokenize text).count a ∨
      ((tokenize text).count a = (tokenize text).count b ∧
        firstIdx a (tokenize text) < firstIdx b (tokenize text))) := by
  refine ⟨?_, ?_, ?_⟩
  · unfold extractTopKeywords
    rw [List.length_map]
    exact List.length_take_le _ _
  · intro s hs
    unfold extractTopKeywords at hs
    rcases List.mem_map.mp hs with ⟨p, hp, hps⟩
    have hp2 : p ∈ sortDesc (countsList (tokenize text)) :=
      (List.take_sublist _ _).subset hp
    have hp3 : p ∈ countsList (tokenize text) := (mem_sortDesc _).mp hp2
    have hp4 : p.1 ∈ tokenize text := (mem_countsList hp3).2
    unfold tokenize at hp4
    have := (List.mem_filter.mp hp4).2
    rw [decide_eq_true_eq] at this
    exact hps ▸ this
  · unfold extractTopKeywords
    rw [List.pairwise_map]
    have h1 : (sortDesc (countsList (tokenize text))).Pairwise
        (keyRel (fun p q => firstIdx p.1 (tokenize text) <
          firstIdx q.1 (tokenize text))) :=
      sortDesc_pairwise (countsList_pairwise (tokenize text))
    have h2 := List.Pairwise.sublist (List.take_sublist limit _) h1
    refine h2.imp_of_mem ?_
    intro p q hp hq hpq
    have hpc : p.2 = (tokenize text).count p.1 :=
      (mem_countsList ((mem_sortDesc _).mp ((List.take_sublist _ _).subset hp))).1
    have hqc : q.2 = (tokenize text).count q.1 :=
      (mem_countsList ((mem_sortDesc _).mp ((List.take_sublist _ _).subset hq))).1
    rcases hpq with h | ⟨h, hS⟩
    · exact Or.inl (hqc ▸ hpc ▸ h)
    · exact Or.inr ⟨hqc ▸ hpc ▸ h, hS⟩

/-! Normalizers, from `src/lib/normalizers.ts`. -/

/-- Separator glyphs of `sanitizeProjectTitle`'s run regex `[-–—|•]+`. -/
def isSepChar (c : Char) : Bool :=
  c == '-' || c == '–' || c == '—' || c == '|' || c == '•'

/-- Scanner state for `s.replace(/\s*\([^)]*\)\s*/g, " ")`: either reading
    ordinary text (holding the reversed pending whitespace run, which may
    become the `\s*` of an upcoming match), or inside a potential `(...)`
    match, or consuming the trailing `\s*` of a completed match. -/
inductive RpSt : Type
  | norm (pend : Str)
  | inPar (pend inside : Str)
  | after
deriving DecidableEq

/-- Scanner for `s.replace(/\s*\([^)]*\)\s*/g, " ")`.  A `(` with some `)`
    after it starts a match (the regex consumes up to the first `)`); a `(`
    with no later `)` never matches and is emitted literally at the end. -/
def rpGo : RpSt → Str → Str
  | .norm pend, [] => pend.reverse
  | .norm pend, c :: rest =>
    if c = '(' then rpGo (.inPar pend []) rest
    else if isJsWs c then rpGo (.norm (c :: pend)) rest
    else pend.reverse ++ c :: rpGo (.norm []) rest
  | .inPar pend inside, [] => pend.reverse ++ '(' :: inside.reverse
  | .inPar pend inside, c :: rest =>
    if c = ')' then ' ' :: rpGo .after rest
    else rpGo (.inPar pend (c :: inside)) rest
  | .after, [] => []
  | .after, c :: rest =>
    if isJsWs c then rpGo .after rest
    else if c = '(' then rpGo (.inPar [] []) rest
    else c :: rpGo (.norm []) rest

def removeParens (l : Str) : Str := rpGo (.norm []) l

def prevSpaceOf : Option Char → Bool
  | none => true
  | some p => isJsWs p

/-- Scanner state for the separator-run replacement of `sanitizeProjectTitle`:
    either reading ordinary text (tracking the previous source character for
    the `prevIsSpace` check, `none` at the start of the string), or inside a
    run of separator glyphs whose `prevIsSpace` flag is already fixed. -/
inductive SepSt : Type
  | norm (prev : Option Char)
  | run (prevSpace : Bool)
deriving DecidableEq

/-- Scanner for `withoutParens.replace(/[-–—|•]+/g, match-fn)`: a maximal run
    flush between two non-space characters collapses to `-`, otherwise (a
    space or a string boundary on either side) to `" - "`. -/
def sepGo : SepSt → Str → Str
  | .norm _, [] => []
  | .norm prev, c :: rest =>
    if isSepChar c then sepGo (.run (prevSpaceOf prev)) rest
    else c :: sepGo (.norm (some c)) rest
  | .run _, [] => [' ', '-', ' ']
  | .run pSp, c :: rest =>
    if isSepChar c then sepGo (.run pSp) rest
    else if !pSp && !isJsWs c then '-' :: c :: sepGo (.norm (some c)) rest
    else ' ' :: '-' :: ' ' :: c :: sepGo (.norm (some c)) rest

def normalizeSeparators (l : Str) : Str := sepGo (.norm none) l

/-- Model of `sanitizeProjectTitle`: drop parentheticals, normalize separator
    runs, collapse multi-spaces, trim. -/
def sanitizeProjectTitle (l : Str) : Str :=
  trimStr (collapseWs (normalizeSeparators (removeParens l)))

/-- Line splitter for `s.split(/\r?\n/)`: `cur` holds the reversed current
    line; a `\r` immediately before the `\n` belongs to the separator. -/
def linesRN (cur : Str) : Str → List Str
  | [] => [cur.reverse]
  | c :: rest =>
    if c = '\n' then
      (match cur with
        | '\r' :: cur' => cur'.reverse
        | _ => cur.reverse) :: linesRN [] rest
    else linesRN (c :: cur) rest

def joinNl : List Str → Str
  | [] => []
  | [s] => s
  | s :: rest => s ++ '\n' :: joinNl rest

/-- Model of `dedupeLines`: split on line breaks, trim, keep the first
    occurrence of each distinct non-empty trimmed line, re-join with `\n`. -/
def dedupeLines (l : Str) : Str :=
  joinNl (dedupFirst (((linesRN [] l).map trimStr).filter (fun s => s ≠ [])))

/-- Bullet glyphs of `bulletRegex` (`[•·◦▪►■◆▶▸-]`). -/
def isBulletChar (c : Char) : Bool :=
  c == '•' || c == '·' || c == '◦' || c == '▪' || c == '►' || c == '■' ||
  c == '◆' || c == '▶' || c == '▸' || c == '-'

/-- Scanner for `s.replace(/[•·◦▪►■◆▶▸-]\s*/g, "- ")`; the flag records that
    the `\s*` after a replaced glyph is still being consumed. -/
def brGo : Bool → Str → Str
  | _, [] => []
  | skip, c :: rest =>
    if skip && isJsWs c then brGo true rest
    else if isBulletChar c then '-' :: ' ' :: brGo true rest
    else c :: brGo false rest

/-- Allow-list of `disallowedCharsRegex` (`[^a-zA-Z0-9.,;:/()&\-'\s]` is
    removed). -/
def isAllowedChar (c : Char) : Bool :=
  ('a' ≤ c && c ≤ 'z') || ('A' ≤ c && c ≤ 'Z') || ('0' ≤ c && c ≤ '9') ||
  c == '.' || c == ',' || c == ';' || c == ':' || c == '/' || c == '(' ||
  c == ')' || c == '&' || c == '-' || c == Char.ofNat 39 || isJsWs c

/-- Scanner for `s.replace(/\s+/g, " ")`; the flag records being inside a
    whitespace run whose single replacement space was already emitted. -/
def wsGo : Bool → Str → Str
  | _, [] => []
  | inRun, c :: rest =>
    if isJsWs c then
      if inRun then wsGo true rest else ' ' :: wsGo true rest
    else c :: wsGo false rest

/-- Case-insensitive literal prefix test (`lowerChar` on the subject side; the
    patterns used are already lower-case ASCII). -/
def ciLead : Str → Str → Bool
  | [], _ => true
  | _ :: _, [] => false
  | p :: ps, c :: cs => lowerChar c == p && ciLead ps cs

def benefitsAt (l : Str) : Bool :=
  ciLead (lit (r"what we offer")) l || ciLead (lit (r"benefits")) l ||
  ciLead (lit (r"compensation")) l

/-- Scanner for `s.replace(/(What we offer|Benefits|Compensation)[\s\S]*/i,
    "")`: cut the text at the first case-insensitive occurrence of one of the
    three heading phrases. -/
def truncateBenefits : Str → Str
  | [] => []
  | c :: rest => if benefitsAt (c :: rest) then [] else c :: truncateBenefits rest

/-- Model of `cleanResumeText`. -/
def cleanResumeText (l : Str) : Str :=
  trimStr (wsGo false (List.filter isAllowedChar (brGo false l)))

/-- Model of `cleanJobDescription`. -/
def cleanJobDescription (l : Str) : Str :=
  trimStr (wsGo false (List.filter isAllowedChar (brGo false (truncateBenefits l))))

/-! Name stripping (`stripNameFromSummary`).  The source builds
    `new RegExp("\\b" + n + "\\b", "i")` where `n` is the trimmed name with
    whitespace runs replaced by `\s+`.  The matcher below implements exactly
    that pattern — name tokens matched literally and case-insensitively,
    separated by non-empty whitespace runs, with `\b` word boundaries — which
    is the behaviour of the source for names free of regex metacharacters
    (the theorems about it carry that hypothesis). -/

/-- Split on whitespace runs (the tokens of the name). -/
def wsSplitGo (cur : Str) : Str → List Str
  | [] => if cur = [] then [] else [cur.reverse]
  | c :: rest =>
    if isJsWs c then
      if cur = [] then wsSplitGo [] rest else cur.reverse :: wsSplitGo [] rest
    else wsSplitGo (c :: cur) rest

/-- JS regex `\w` (for `\b` word boundaries), by code point. -/
def isWordChar (c : Char) : Bool :=
  (97 ≤ c.toNat && c.toNat ≤ 122) || (65 ≤ c.toNat && c.toNat ≤ 90) ||
  (48 ≤ c.toNat && c.toNat ≤ 57) || c.toNat == 95

def ciEqChar (a b : Char) : Bool := lowerChar a == lowerChar b

/-- Match one name token literally (case-insensitively) at the head; return
    the rest of the text. -/
def ciLeadTok : Str → Str → Option Str
  | [], l => some l
  | _ :: _, [] => none
  | p :: ps, c :: cs => if ciEqChar p c then ciLeadTok ps cs else none

/-- Match `t1 \s+ t2 \s+ … \s+ tk` at the head of the text (the greedy `\s+`
    is deterministic here because token characters are never whitespace). -/
def matchToks : List Str → Str → Option Str
  | [], l => some l
  | t :: ts, l =>
    match ciLeadTok t l with
    | none => none
    | some l' =>
      match ts with
      | [] => some l'
      | _ :: _ =>
        if l'.takeWhile isJsWs = [] then none
        else matchToks ts (l'.dropWhile isJsWs)

def nonWordAt : Option Char → Bool
  | none => true
  | some c => !isWordChar c

/-- Match `\b t1 \s+ … tk \b` at the current position (`prev` is the previous
    character of the text, `none` at the start); returns the text after the
    match. -/
def occAt (tks : List Str) (prev : Option Char) (l : Str) : Option Str :=
  if nonWordAt prev then
    match matchToks tks l with
    | none => none
    | some rest => if nonWordAt rest.head? then some rest else none
  else none

/-- Leftmost-match scan of `summary.replace(re, "")`: returns the prefix
    before the first match and the text after it. -/
def findStrip (tks : List Str) (prev : Option Char) : Str → Option (Str × Str)
  | [] =>
    match occAt tks prev [] with
    | some rest => some ([], rest)
    | none => none
  | c :: r =>
    match occAt tks prev (c :: r) with
    | some rest => some ([], rest)
    | none => (findStrip tks (some c) r).map (fun pr => (c :: pr.1, pr.2))

/-- Model of `stripNameFromSummary`. -/
def stripNameFromSummary (summary fullName : Str) : Str :=
  let n := wsSplitGo [] (trimStr fullName)
  if n = [] then trimStr summary
  else
    match findStrip n none summary with
    | none => trimStr (collapseWs summary)
    | some (before, rest) => trimStr (collapseWs (before ++ rest))

/-! Structured records (zod schemas of `src/types/schemas/core.ts`) and the
    profile/job normalizers. -/

structure Contact where
  name : Str
  email : Option Str
  phone : Option Str
  linkedin : Option Str
  portfolio : Option Str
  website : Option Str
  behance : Option Str
deriving DecidableEq, Repr

structure Project where
  name : Str
  summary : Str
  skills : List Str
  outcomes : List Str
deriving DecidableEq, Repr

structure CandidateProfile where
  contact : Contact
  title : Option Str
  years : Option ℚ
  location : Option Str
  skills : List Str
  tools : List Str
  projects : List Project
  additionalContext : Option Str
deriving DecidableEq, Repr

structure JobSpec where
  title : Str
  responsibilities : List Str
  mustHaves : List Str
  niceToHaves : List Str
  keywords : List Str
  location : Option Str
  employmentType : Option Str
deriving DecidableEq, Repr

/-- Model of `trimList`: trim, drop empties, first-occurrence dedup
    (`Array.from(new Set(...))`). -/
def trimList (values : List Str) : List Str :=
  dedupFirst ((values.map trimStr).filter (fun s => s ≠ []))

/-- Model of `x?.trim() || undefined` on an optional field. -/
def optTrimOrNone (o : Option Str) : Option Str :=
  match o with
  | none => none
  | some s => if trimStr s = [] then none else some (trimStr s)

/-- Model of `normalizeJobSpec`. -/
def normalizeJobSpec (spec : JobSpec) : JobSpec :=
  { spec with
    title := trimStr spec.title
    responsibilities := trimList spec.responsibilities
    mustHaves := trimList spec.mustHaves
    niceToHaves := trimList spec.niceToHaves
    keywords := trimList spec.keywords
    location := optTrimOrNone spec.location
    employmentType := optTrimOrNone spec.employmentType }

/-- Model of `normalizeCandidateProfile` (the `normalizers.ts` version used by
    the API routes).  Note `project.summary?.trim() || ""` equals plain
    trimming, and `x?.trim()` on optional fields keeps an empty string. -/
def normalizeCandidateProfile (profile : CandidateProfile) : CandidateProfile :=
  { profile with
    contact :=
      { profile.contact with
        name :=
          if trimStr profile.contact.name = [] then lit (r"Candidate")
          else trimStr profile.contact.name
        email := profile.contact.email.map trimStr
        phone := profile.contact.phone.map trimStr
        linkedin := profile.contact.linkedin.map trimStr
        portfolio := profile.contact.portfolio.map trimStr
        website := profile.contact.website.map trimStr
        behance := profile.contact.behance.map trimStr }
    title := profile.title.map trimStr
    location := profile.location.map trimStr
    skills := trimList profile.skills
    tools := trimList profile.tools
    projects := profile.projects.map (fun project =>
      { project with
        name := sanitizeProjectTitle
          (if trimStr project.name = [] then lit (r"Untitled Project")
           else trimStr project.name)
        summary := trimStr project.summary
        skills := trimList project.skills
        outcomes := trimList project.outcomes })
    additionalContext := optTrimOrNone profile.additionalContext }

/-- C8: `sanitizeProjectTitle` removes parentheticals, contextually collapses
    separator runs (flush runs to a bare hyphen, space-adjacent or boundary
    runs to a spaced hyphen), collapses multi-spaces and trims; in particular
    on the two documented examples. -/
theorem sanitizeProjectTitle_spec :
    (∀ l, sanitizeProjectTitle l =
      trimStr (collapseWs (normalizeSeparators (removeParens l)))) ∧
    sanitizeProjectTitle (lit (r"How to Draw (iOS) - Step-by-step")) =
      lit (r"How to Draw - Step-by-step") ∧
    sanitizeProjectTitle (lit (r"Full-Stack")) = lit (r"Full-Stack") := by
  refine ⟨fun l => rfl, by decide, by decide⟩

/-- Concrete profile whose single project has a whitespace-only summary. -/
def profileBlankSummary : CandidateProfile :=
  { contact :=
      { name := lit (r"Ada")
        email := none, phone := none, linkedin := none, portfolio := none
        website := none, behance := none }
    title := none, years := none, location := none
    skills := [], tools := []
    projects := [{ name := lit (r"P"), summary := [' '], skills := [], outcomes := [] }]
    additionalContext := none }

/-- C3 counterexample: a blank project summary is normalized to the empty
    string, not to a non-empty placeholder sentence. -/
theorem normalize_blank_summary_not_placeholder :
    profileBlankSummary.projects.map Project.summary = [[' ']] ∧
    (normalizeCandidateProfile profileBlankSummary).projects.map Project.summary
      = [[]] := by
  constructor
  · rfl
  · decide

/-- C3 (amended): `normalizeCandidateProfile` trims every project summary; a
    blank (empty or whitespace-only) summary therefore becomes the empty
    string. -/
theorem normalize_project_summary_trimmed (profile : CandidateProfile) :
    (normalizeCandidateProfile profile).projects.map Project.summary =
      profile.projects.map (fun pr => trimStr pr.summary) := by
  unfold normalizeCandidateProfile
  simp [List.map_map]

/-- Concrete profile whose single project is named `"(x)"`; sanitizing that
    name yields the empty string, which escapes the `"Untitled Project"`
    placeholder (applied before sanitizing, not after). -/
def profileParenName : CandidateProfile :=
  { contact :=
      { name := lit (r"Ada")
        email := none, phone := none, linkedin := none, portfolio := none
        website := none, behance := none }
    title := none, years := none, location := none
    skills := [], tools := []
    projects := [{ name := lit (r"(x)"), summary := lit (r"s"), skills := [], outcomes := [] }]
    additionalContext := none }

/-- C6: `normalizeCandidateProfile` is not idempotent.  On a project named
    `"(x)"` the first pass produces the empty name (violating the documented
    non-empty-name invariant) and the second pass turns it into
    `"Untitled Project"`. -/
theorem normalize_not_idempotent_on_paren_name :
    normalizeCandidateProfile (normalizeCandidateProfile profileParenName) ≠
      normalizeCandidateProfile profileParenName ∧
    (normalizeCandidateProfile profileParenName).projects.map Project.name
      = [[]] ∧
    (normalizeCandidateProfile
      (normalizeCandidateProfile profileParenName)).projects.map Project.name
      = [lit (r"Untitled Project")] := by
  refine ⟨by decide, by decide, by decide⟩

/-- Case-insensitive substring occurrence (of a lower-case ASCII pattern). -/
def hasCI (pat : Str) : Str → Bool
  | [] => ciLead pat []
  | c :: rest => ciLead pat (c :: rest) || hasCI pat rest

/-- Exact (case-sensitive) leading-segment test. -/
def leadEq : Str → Str → Bool
  | [], _ => true
  | _ :: _, [] => false
  | p :: ps, c :: cs => p == c && leadEq ps cs

/-- Exact (case-sensitive) substring occurrence. -/
def hasSub (pat : Str) : Str → Bool
  | [] => leadEq pat []
  | c :: rest => leadEq pat (c :: rest) || hasSub pat rest

theorem ciLead_append {pat l : Str} (s : Str) (h : ciLead pat l = true) :
    ciLead pat (l ++ s) = true := by
  induction pat generalizing l with
  | nil => rfl
  | cons p ps ih =>
    cases l with
    | nil => exact absurd h (by simp [ciLead])
    | cons c cs =>
      rw [List.cons_append]
      unfold ciLead at h ⊢
      have h' : (lowerChar c == p) = true ∧ ciLead ps cs = true := by simpa using h
      simp [h'.1, ih h'.2]

theorem truncateBenefits_leading : ∀ text : Str,
    ∃ s, text = truncateBenefits text ++ s := by
  intro text
  induction text with
  | nil => exact ⟨[], rfl⟩
  | cons c rest ih =>
    by_cases hb : benefitsAt (c :: rest) = true
    · exact ⟨c :: rest, by simp [truncateBenefits, hb]⟩
    · obtain ⟨s, hs⟩ := ih
      refine ⟨s, ?_⟩
      rw [show truncateBenefits (c :: rest) = c :: truncateBenefits rest by
        simp [truncateBenefits, hb]]
      rw [List.cons_append]
      exact congrArg (c :: ·) hs

theorem hasCI_truncateBenefits_false {pat : Str}
    (himp : ∀ l, ciLead pat l = true → benefitsAt l = true) (hne : pat ≠ []) :
    ∀ text : Str, hasCI pat (truncateBenefits text) = false := by
  intro text
  induction text with
  | nil =>
    show hasCI pat [] = false
    cases pat with
    | nil => exact absurd rfl hne
    | cons p ps => simp [hasCI, ciLead]
  | cons c rest ih =>
    by_cases hb : benefitsAt (c :: rest) = true
    · rw [show truncateBenefits (c :: rest) = [] by simp [truncateBenefits, hb]]
      cases pat with
      | nil => exact absurd rfl hne
      | cons p ps => simp [hasCI, ciLead]
    · rw [show truncateBenefits (c :: rest) = c :: truncateBenefits rest by
        simp [truncateBenefits, hb]]
      unfold hasCI
      rw [ih, Bool.or_false]
      by_cases hlead : ciLead pat (c :: truncateBenefits rest) = true
      · obtain ⟨s, hs⟩ := truncateBenefits_leading rest
        have : ciLead pat ((c :: truncateBenefits rest) ++ s) = true :=
          ciLead_append s hlead
        rw [show (c :: truncateBenefits rest) ++ s = c :: rest by
          rw [List.cons_append]; exact congrArg (c :: ·) hs.symm] at this
        exact absurd (himp _ this) hb
      · exact Bool.not_eq_true _ ▸ hlead

/-- Raw job text of the end-to-end scenario of the spec. -/
def benefitsJobText : Str :=
  lit (r"Senior Designer") ++ ['\n', '\n'] ++ lit (r"Responsibilities:") ++
  ['\n'] ++ lit (r"- Build flows") ++ ['\n', '\n'] ++ lit (r"Benefits") ++
  ['\n'] ++ lit (r"Free lunch")

/-- C9: `cleanJobDescription` discards everything from the first
    case-insensitive benefits/compensation heading onward: the kept part is a
    leading segment of the input containing no heading occurrence, and on the
    documented job text the cleaned output contains neither `"Benefits"` nor
    `"Free lunch"`. -/
theorem cleanJobDescription_spec :
    (∀ text : Str, (∃ s, text = truncateBenefits text ++ s) ∧
      hasCI (lit (r"what we offer")) (truncateBenefits text) = false ∧
      hasCI (lit (r"benefits")) (truncateBenefits text) = false ∧
      hasCI (lit (r"compensation")) (truncateBenefits text) = false) ∧
    hasSub (lit (r"Benefits")) (cleanJobDescription benefitsJobText) = false ∧
    hasSub (lit (r"Free lunch")) (cleanJobDescription benefitsJobText) = false := by
  refine ⟨fun text => ⟨truncateBenefits_leading text, ?_, ?_, ?_⟩, by decide, by decide⟩
  · exact hasCI_truncateBenefits_false
      (fun l h => by simp [benefitsAt, h]) (by decide) text
  · exact hasCI_truncateBenefits_false
      (fun l h => by simp [benefitsAt, h]) (by decide) text
  · exact hasCI_truncateBenefits_false
      (fun l h => by simp [benefitsAt, h]) (by decide) text

/-! Rewrite-resume records (zod schemas of `src/types/schemas/rewrite.ts`)
    and the rewrite sanitizer of `src/app/api/rewrite-resume/route.ts`. -/

structure RewriteContact where
  name : Str
  email : Option Str
  phone : Option Str
  linkedin : Option Str
  website : Option Str
  behance : Option Str
  location : Option Str
deriving DecidableEq, Repr

structure RewriteExperience where
  company : Str
  role : Str
  dates : Option Str
  bullets : Option (List Str)
deriving DecidableEq, Repr

structure RewriteProject where
  title : Str
  bullets : Option (List Str)
deriving DecidableEq, Repr

structure RewriteEducation where
  school : Str
  degree : Option Str
  dates : Option Str
deriving DecidableEq, Repr

structure RewriteResume where
  contact : RewriteContact
  headline : Str
  summary : Str
  skills : Option (List Str)
  experience : Option (List RewriteExperience)
  projects : Option (List RewriteProject)
  education : Option (List RewriteEducation)
deriving DecidableEq, Repr

/-- Splitter for `s.split("\n")` (exact, no `\r` handling). -/
def splitNl (cur : Str) : Str → List Str
  | [] => [cur.reverse]
  | c :: rest =>
    if c = '\n' then cur.reverse :: splitNl [] rest else splitNl (c :: cur) rest

/-- Model of `sanitizeBulletArray`: join, dedupe lines, split, `asciiSafe`
    each line, drop empties (`filter(Boolean)`), cap at `limit`. -/
def sanitizeBulletArray (items : List Str) (limit : ℕ) : List Str :=
  (((splitNl [] (dedupeLines (joinNl items))).map asciiSafe).filter
    (fun s => s ≠ [])).take limit

/-- Model of `x ? asciiSafe(x) : undefined` on an optional string field. -/
def optAsciiOrNone (o : Option Str) : Option Str :=
  match o with
  | none => none
  | some d => if d = [] then none else some (asciiSafe d)

/-- Model of `sanitizeRewritePayload(payload, targetRole, candidateName)`.
    `entry.company || ""` equals `entry.company` (both sides are the same
    string when the field is empty), so it is modelled as the field itself. -/
def sanitizeRewritePayload (payload : RewriteResume)
    (targetRole candidateName : Str) : RewriteResume :=
  { contact :=
      { name := asciiSafe
          (if payload.contact.name ≠ [] then payload.contact.name
           else if candidateName ≠ [] then candidateName
           else lit (r"Candidate"))
        email := payload.contact.email.map trimStr
        phone := payload.contact.phone.map trimStr
        linkedin := payload.contact.linkedin.map trimStr
        website := payload.contact.website.map trimStr
        behance := payload.contact.behance.map trimStr
        location := optAsciiOrNone payload.contact.location }
    headline := asciiSafe targetRole
    summary := asciiSafe (stripNameFromSummary payload.summary candidateName)
    skills := some (dedupFirst
      (((payload.skills.getD []).map asciiSafe).filter (fun s => s ≠ [])))
    experience := some ((payload.experience.getD []).map (fun entry =>
      { company := asciiSafe (sanitizeProjectTitle entry.company)
        role := asciiSafe (if entry.role = [] then targetRole else entry.role)
        dates := optAsciiOrNone entry.dates
        bullets := some (sanitizeBulletArray (entry.bullets.getD []) 3) }))
    projects := payload.projects.map (fun ps => ps.map (fun project =>
      { title := asciiSafe (sanitizeProjectTitle project.title)
        bullets := some (sanitizeBulletArray (project.bullets.getD []) 2) }))
    education := payload.education.map (fun es => es.map (fun item =>
      { school := asciiSafe item.school
        degree := optAsciiOrNone item.degree
        dates := optAsciiOrNone item.dates })) }

theorem sanitizeBulletArray_spec (items : List Str) (limit : ℕ) :
    (sanitizeBulletArray items limit).length ≤ limit ∧
    ∀ b ∈ sanitizeBulletArray items limit, b ≠ [] ∧ allAscii b = true := by
  constructor
  · exact List.length_take_le _ _
  · intro b hb
    have hb1 : b ∈ ((splitNl [] (dedupeLines (joinNl items))).map asciiSafe).filter
        (fun s => s ≠ []) := (List.take_sublist _ _).subset hb
    have hb2 := List.mem_filter.mp hb1
    refine ⟨by simpa using hb2.2, ?_⟩
    rcases List.mem_map.mp hb2.1 with ⟨x, _, hx⟩
    exact hx ▸ allAscii_asciiSafe x

/-- C7: every experience entry of the sanitized rewrite has at most 3 bullets
    and every project entry at most 2, and every surviving bullet (produced by
    the dedupe → `asciiSafe` → drop-empties pipeline) is non-empty and pure
    ASCII. -/
theorem sanitizeRewritePayload_bullets (payload : RewriteResume)
    (targetRole candidateName : Str) :
    (∀ e ∈ (sanitizeRewritePayload payload targetRole candidateName).experience.getD [],
      (e.bullets.getD []).length ≤ 3 ∧
      ∀ b ∈ e.bullets.getD [], b ≠ [] ∧ allAscii b = true) ∧
    (∀ pr ∈ (sanitizeRewritePayload payload targetRole candidateName).projects.getD [],
      (pr.bullets.getD []).length ≤ 2 ∧
      ∀ b ∈ pr.bullets.getD [], b ≠ [] ∧ allAscii b = true) := by
  constructor
  · intro e he
    have he' : e ∈ (payload.experience.getD []).map (fun entry =>
        ({ company := asciiSafe (sanitizeProjectTitle entry.company)
           role := asciiSafe (if entry.role = [] then targetRole else entry.role)
           dates := optAsciiOrNone entry.dates
           bullets := some (sanitizeBulletArray (entry.bullets.getD []) 3) }
          : RewriteExperience)) := he
    rcases List.mem_map.mp he' with ⟨entry, _, hent⟩
    subst hent
    exact sanitizeBulletArray_spec (entry.bullets.getD []) 3
  · intro pr hpr
    have hpr' : pr ∈ (payload.projects.map (fun ps => ps.map (fun project =>
        ({ title := asciiSafe (sanitizeProjectTitle project.title)
           bullets := some (sanitizeBulletArray (project.bullets.getD []) 2) }
          : RewriteProject)))).getD [] := hpr
    cases hps : payload.projects with
    | none => rw [hps] at hpr'; simp at hpr'
    | some ps =>
      rw [hps] at hpr'
      rcases List.mem_map.mp hpr' with ⟨project, _, hp⟩
      subst hp
      exact sanitizeBulletArray_spec (project.bullets.getD []) 2

theorem extractTopKeywords_spec_witness :
    2 < (lit (r"alpha")).length ∧ lit (r"alpha") ∉ STOP_WORDS :=
  (extractTopKeywords_spec (lit (r"alpha beta alpha")) 25).2.1
    (lit (r"alpha")) (by decide)

/-- Concrete rewrite payload exercising the bullet caps. -/
def samplePayload : RewriteResume :=
  { contact :=
      { name := lit (r"Ada"), email := none, phone := none, linkedin := none
        website := none, behance := none, location := none }
    headline := lit (r"x"), summary := lit (r"s")
    skills := none
    experience := some
      [{ company := lit (r"Acme"), role := lit (r"Dev"), dates := none
         bullets := some [lit (r"one"), lit (r"one"), lit (r"two"),
           lit (r"three"), lit (r"four")] }]
    projects := some
      [{ title := lit (r"Proj"),
         bullets := some [lit (r"pa"), lit (r"pb"), lit (r"pc")] }]
    education := none }

/-- Sanitized experience entry produced by `samplePayload`. -/
def sampleExperienceOut : RewriteExperience :=
  { company := lit (r"Acme"), role := lit (r"Dev"), dates := none
    bullets := some [lit (r"one"), lit (r"two"), lit (r"three")] }

theorem sanitizeRewritePayload_bullets_witness :
    (sampleExperienceOut.bullets.getD []).length ≤ 3 ∧
    (lit (r"one") ≠ [] ∧ allAscii (lit (r"one")) = true) :=
  ⟨((sanitizeRewritePayload_bullets samplePayload (lit (r"Role"))
      (lit (r"Ada"))).1 sampleExperienceOut (by decide)).1,
   ((sanitizeRewritePayload_bullets samplePayload (lit (r"Role"))
      (lit (r"Ada"))).1 sampleExperienceOut (by decide)).2
     (lit (r"one")) (by decide)⟩

/-! Match scoring and the two API route handlers (`src/app/api/match/route.ts`
    and `src/app/api/rewrite-resume/route.ts`), modelled from the point where
    schema validation has succeeded.  The collaborator call is an abstract
    outcome: `ok` with a schema-conforming value, or `failed` covering an
    errored call, empty content, unparsable JSON and non-conforming JSON.
    JS number arithmetic is modelled exactly over `ℚ`. -/

structure MatchOutput where
  fit_score : ℚ
  highlights : List Str
  gaps : List Str
  verdict : Str
  llm_fit_score : Option ℚ
  keyword_overlap : Option ℚ
deriving DecidableEq, Repr

inductive LlmResult (α : Type) : Type
  | ok (value : α)
  | failed

inductive RouteResult (α : Type) : Type
  | json (value : α)
  | errorStatus (status : ℕ)

/-- Model of `clampScore` (`Math.max(0, Math.min(100, Math.round(value)))`). -/
def clampScore (value : ℚ) : ℚ := max 0 (min 100 ((round value : ℤ) : ℚ))

def joinSep (sep : Str) : List Str → Str
  | [] => []
  | [s] => s
  | s :: rest => s ++ sep ++ joinSep sep rest

/-- Model of `collectEvidenceStrings` (`title ?? ""` and
    `additionalContext ?? ""` make every entry a string; the filter keeps the
    non-empty ones). -/
def collectEvidenceStrings (profile : CandidateProfile) : List Str :=
  ([profile.contact.name, profile.title.getD [], profile.additionalContext.getD []]
    ++ profile.skills ++ profile.tools
    ++ profile.projects.flatMap (fun p => p.skills)
    ++ profile.projects.flatMap (fun p => p.outcomes)).filter (fun s => s ≠ [])

/-- Model of `buildMockResponse` from `match/route.ts` — the deterministic
    fallback `MatchOutput`. -/
def buildMockResponse (job : JobSpec) (profile : CandidateProfile) : MatchOutput :=
  let combinedJob := cleanJobDescription (joinSep [' ']
    ([job.title] ++ job.responsibilities ++ job.mustHaves ++ job.niceToHaves ++
      job.keywords))
  let resumeText := cleanResumeText (joinSep [' ']
    ((([some profile.contact.name, profile.title, profile.additionalContext].filterMap id)
      ++ profile.skills ++ profile.tools
      ++ profile.projects.flatMap (fun p =>
          [p.name, p.summary] ++ p.skills ++ p.outcomes)).filter (fun s => s ≠ [])))
  let jobKeywords := extractTopKeywords combinedJob 25
  let resumeKeywords := extractTopKeywords resumeText 25
  let stats := computeKeywordStats jobKeywords resumeKeywords
  let verdict :=
    if stats.keywordScore > 70 then lit (r"Likely qualified with strong alignment.")
    else if stats.keywordScore > 40 then
      lit (r"Partially qualified; additional evidence would help.")
    else lit (r"Limited evidence of fit for the role.")
  { fit_score := clampScore stats.keywordScore
    highlights := (resumeKeywords.take 3).map (fun keyword =>
      lit (r"Resume references ") ++ keyword ++ ['.'])
    gaps := ((jobKeywords.filter (fun keyword => keyword ∉ resumeKeywords)).take 3).map
      (fun keyword => lit (r"No direct mention of ") ++ keyword ++ ['.'])
    verdict := verdict
    llm_fit_score := some (clampScore stats.keywordScore)
    keyword_overlap := some ((round stats.keywordScore : ℤ) : ℚ) }

/-- Model of `buildFallbackResume` from `rewrite-resume/route.ts` — the
    deterministic fallback `RewriteResume`. -/
def buildFallbackResume (profile : CandidateProfile) (targetRole : Str)
    (highlights gaps : List Str) : RewriteResume :=
  let summaryParts :=
    (([profile.additionalContext.map trimStr,
       if highlights ≠ [] then
         some (lit (r"Strengths: ") ++ joinSep (lit (r", ")) highlights)
       else none,
       if gaps ≠ [] then
         some (lit (r"Focus Areas: ") ++ joinSep (lit (r", ")) gaps)
       else none].filterMap id).filter (fun s => s ≠ []))
  let combinedSkills := dedupFirst ((profile.skills ++ profile.tools).map asciiSafe)
  let experienceEntries := (profile.projects.take 2).map (fun project =>
    ({ company := asciiSafe (sanitizeProjectTitle project.name)
       role := targetRole
       dates := none
       bullets := (((splitNl [] (dedupeLines (joinNl
         (([project.summary] ++ project.outcomes ++
           [profile.additionalContext.getD []]).filter (fun s => s ≠ []))))).map
             asciiSafe).filter (fun s => s ≠ [])).take 3 |> some }
      : RewriteExperience))
  let projectEntries := profile.projects.map (fun project =>
    ({ title := asciiSafe (sanitizeProjectTitle project.name)
       bullets := (((splitNl [] (dedupeLines (joinNl
         (([project.summary] ++ project.outcomes).filter
           (fun s => s ≠ []))))).map asciiSafe).filter
             (fun s => s ≠ [])).take 2 |> some }
      : RewriteProject))
  let summary :=
    if summaryParts ≠ [] then
      asciiSafe (stripNameFromSummary (joinSep (lit (r". ")) summaryParts)
        profile.contact.name)
    else asciiSafe targetRole
  { contact :=
      { name := profile.contact.name
        email := profile.contact.email
        phone := profile.contact.phone
        linkedin := profile.contact.linkedin
        website := profile.contact.website.or profile.contact.portfolio
        behance := profile.contact.behance
        location := optAsciiOrNone profile.location }
    headline := targetRole
    summary := summary
    skills := some (combinedSkills.filter (fun s => s ≠ []))
    experience := some experienceEntries
    projects := if projectEntries ≠ [] then some projectEntries else none
    education := none }

/-- Model of the `/api/match` handler after successful validation.  The
    prompt-construction steps (which do not affect the returned value) are
    omitted; the `catch` handler returns `buildMockResponse` because both
    normalized values are set once validation succeeded. -/
def matchRoute (jobSpecRaw : JobSpec) (profileRaw : CandidateProfile)
    (apiKey : Bool) (llm : LlmResult MatchOutput) : RouteResult MatchOutput :=
  let normalizedJob := normalizeJobSpec jobSpecRaw
  let normalizedProfile := normalizeCandidateProfile profileRaw
  let combinedJob := cleanJobDescription (joinSep [' ']
    ([normalizedJob.title] ++ normalizedJob.responsibilities ++
      normalizedJob.mustHaves ++ normalizedJob.niceToHaves ++ normalizedJob.keywords))
  let resumeEvidence := cleanResumeText (joinSep [' ']
    ((([some normalizedProfile.contact.name, normalizedProfile.title,
        normalizedProfile.location, normalizedProfile.additionalContext].filterMap id)
      ++ collectEvidenceStrings normalizedProfile).filter (fun s => s ≠ [])))
  let jobKeywords := extractTopKeywords combinedJob 25
  let resumeKeywords := extractTopKeywords resumeEvidence 25
  let stats := computeKeywordStats jobKeywords resumeKeywords
  if apiKey = false then
    .json (buildMockResponse normalizedJob normalizedProfile)
  else
    match llm with
    | .ok parsed =>
      let llmScore := clampScore parsed.fit_score
      let finalScore := clampScore (llmScore * (7/10 : ℚ) +
        stats.keywordScore * (3/10 : ℚ))
      .json { parsed with
        fit_score := finalScore
        llm_fit_score := some llmScore
        keyword_overlap := some ((round stats.keywordScore : ℤ) : ℚ)
        highlights := parsed.highlights.take 6
        gaps := parsed.gaps.take 6
        verdict := trimStr parsed.verdict }
    | .failed => .json (buildMockResponse normalizedJob normalizedProfile)

/-- Model of the `/api/rewrite-resume` handler after successful validation.
    With no API key the deterministic fallback is returned; with a key, a
    collaborator failure reaches the `catch` handler, which returns a 500
    error response (`"Failed to improve resume."`). -/
def rewriteRoute (profileRaw : CandidateProfile) (jobRaw : JobSpec)
    (matchOutput : MatchOutput) (apiKey : Bool)
    (llm : LlmResult RewriteResume) : RouteResult RewriteResume :=
  let normalizedProfile := normalizeCandidateProfile profileRaw
  let normalizedJob := normalizeJobSpec jobRaw
  let targetRole :=
    if normalizedJob.title ≠ [] then normalizedJob.title else lit (r"Target Role")
  if apiKey = false then
    .json (buildFallbackResume normalizedProfile targetRole
      matchOutput.highlights matchOutput.gaps)
  else
    match llm with
    | .ok parsed =>
      .json (sanitizeRewritePayload parsed targetRole normalizedProfile.contact.name)
    | .failed => .errorStatus 500

/-- Concrete schema-valid job spec. -/
def sampleJob : JobSpec :=
  { title := lit (r"Designer"), responsibilities := [], mustHaves := []
    niceToHaves := [], keywords := [], location := none, employmentType := none }

/-- Concrete schema-valid candidate profile. -/
def sampleProfile : CandidateProfile :=
  { contact :=
      { name := lit (r"Ada"), email := none, phone := none, linkedin := none
        portfolio := none, website := none, behance := none }
    title := none, years := none, location := none
    skills := [lit (r"figma")], tools := []
    projects :=
      [{ name := lit (r"P"), summary := lit (r"sum"), skills := [], outcomes := [] }]
    additionalContext := none }

/-- Concrete match output accompanying the rewrite payload. -/
def sampleMatchOutput : MatchOutput :=
  { fit_score := 50, highlights := [], gaps := [], verdict := lit (r"ok")
    llm_fit_score := none, keyword_overlap := none }

/-- C2 counterexample: on a schema-valid request with an API key configured, a
    collaborator failure makes the rewrite operation surface a 500 error
    instead of the deterministic fallback. -/
theorem rewriteRoute_surfaces_error :
    rewriteRoute sampleProfile sampleJob sampleMatchOutput true (.failed) =
      .errorStatus 500 := rfl

/-- C2 (amended): on schema-valid requests, the match operation returns the
    deterministic fallback whenever the collaborator fails (with or without an
    API key), and the rewrite operation returns the deterministic fallback
    only when no API key is configured — with a key, a collaborator failure
    surfaces a 500 error to the caller. -/
theorem routes_fallback_spec (job : JobSpec) (profile : CandidateProfile)
    (m : MatchOutput) (apiKey : Bool) (llm : LlmResult RewriteResume) :
    matchRoute job profile apiKey .failed =
      .json (buildMockResponse (normalizeJobSpec job)
        (normalizeCandidateProfile profile)) ∧
    rewriteRoute profile job m false llm =
      .json (buildFallbackResume (normalizeCandidateProfile profile)
        (if (normalizeJobSpec job).title ≠ [] then (normalizeJobSpec job).title
         else lit (r"Target Role")) m.highlights m.gaps) ∧
    rewriteRoute profile job m true .failed = .errorStatus 500 := by
  refine ⟨?_, rfl, rfl⟩
  cases apiKey <;> rfl

/-! Character-class facts used by the name-stripping proofs. -/

theorem toNat_ofNat_valid {n : ℕ} (h : n < 55296) : (Char.ofNat n).toNat = n := by
  have hv : n.isValidChar := Or.inl h
  unfold Char.ofNat
  rw [dif_pos hv]
  rfl

theorem lowerChar_toNat (c : Char) :
    (lowerChar c).toNat =
      if 65 ≤ c.toNat ∧ c.toNat ≤ 90 then c.toNat + 32 else c.toNat := by
  unfold lowerChar
  by_cases h : 65 ≤ c.toNat ∧ c.toNat ≤ 90
  · rw [if_pos h, if_pos h, toNat_ofNat_valid (by omega)]
  · rw [if_neg h, if_neg h]

theorem isWordChar_iff {c : Char} :
    isWordChar c = true ↔
      (97 ≤ c.toNat ∧ c.toNat ≤ 122) ∨ (65 ≤ c.toNat ∧ c.toNat ≤ 90) ∨
      (48 ≤ c.toNat ∧ c.toNat ≤ 57) ∨ c.toNat = 95 := by
  simp only [isWordChar, Bool.or_eq_true, Bool.and_eq_true, decide_eq_true_eq,
    beq_iff_eq]
  tauto

theorem isJsWs_iff {c : Char} :
    isJsWs c = true ↔
      c.toNat = 32 ∨ c.toNat = 9 ∨ c.toNat = 10 ∨ c.toNat = 11 ∨
      c.toNat = 12 ∨ c.toNat = 13 ∨ c.toNat = 0xA0 ∨ c.toNat = 0x1680 ∨
      (0x2000 ≤ c.toNat ∧ c.toNat ≤ 0x200A) ∨ c.toNat = 0x2028 ∨
      c.toNat = 0x2029 ∨ c.toNat = 0x202F ∨ c.toNat = 0x205F ∨
      c.toNat = 0x3000 ∨ c.toNat = 0xFEFF := by
  simp only [isJsWs, Bool.or_eq_true, Bool.and_eq_true, decide_eq_true_eq,
    beq_iff_eq]
  tauto

theorem word_not_ws {c : Char} (h : isWordChar c = true) : isJsWs c = false := by
  cases hws : isJsWs c with
  | false => rfl
  | true =>
    rw [isWordChar_iff] at h
    rw [isJsWs_iff] at hws
    omega

theorem ws_not_word {c : Char} (h : isJsWs c = true) : isWordChar c = false := by
  cases hw : isWordChar c with
  | false => rfl
  | true =>
    rw [isWordChar_iff] at hw
    rw [isJsWs_iff] at h
    omega

theorem ciEqChar_word {p c : Char} (hp : isWordChar p = true)
    (h : ciEqChar p c = true) : isWordChar c = true := by
  have heq : lowerChar p = lowerChar c := by simpa [ciEqChar] using h
  have htn : (lowerChar p).toNat = (lowerChar c).toNat := by rw [heq]
  rw [lowerChar_toNat, lowerChar_toNat] at htn
  rw [isWordChar_iff] at hp ⊢
  by_cases h1 : 65 ≤ p.toNat ∧ p.toNat ≤ 90 <;>
    by_cases h2 : 65 ≤ c.toNat ∧ c.toNat ≤ 90
  · rw [if_pos h1, if_pos h2] at htn; omega
  · rw [if_pos h1, if_neg h2] at htn; omega
  · rw [if_neg h1, if_pos h2] at htn; omega
  · rw [if_neg h1, if_neg h2] at htn; omega

theorem ciEqChar_not_ws {p c : Char} (hp : isWordChar p = true)
    (h : ciEqChar p c = true) : isJsWs c = false :=
  word_not_ws (ciEqChar_word hp h)

/-! Structural description of a regex match of `\b t1 \s+ … \s+ tk \b` and its
    preservation by whitespace collapsing and trimming. -/

/-- Structural match of the token sequence against a text region: each token
    matches literally (case-insensitively) and consecutive tokens are
    separated by a non-empty whitespace run. -/
inductive TokMatch : List Str → Str → Prop
  | single (t m : Str) : ciLeadTok t m = some [] → TokMatch [t] m
  | cons (t : Str) (ts : List Str) (mt w rest : Str) :
      ciLeadTok t mt = some [] → ts ≠ [] → w ≠ [] →
      (∀ x ∈ w, isJsWs x = true) → TokMatch ts rest →
      TokMatch (t :: ts) (mt ++ w ++ rest)

/-- Occurrence of the name pattern somewhere in the text: a region matching
    the tokens, with word-boundary context on both sides. -/
def Occ (tks : List Str) (l : Str) : Prop :=
  ∃ a m b, l = a ++ m ++ b ∧ TokMatch tks m ∧
    (∀ c ∈ a.getLast?, isWordChar c = false) ∧
    (∀ c ∈ b.head?, isWordChar c = false)

/-- The plain-name condition: every token is non-empty and made of word
    characters (letters, digits, underscore) — the domain on which the
    unescaped `RegExp` construction of the source behaves as a literal
    matcher. -/
def plainToks (tks : List Str) : Prop :=
  ∀ t ∈ tks, t ≠ [] ∧ ∀ p ∈ t, isWordChar p = true

theorem ciLeadTok_decomp :
    ∀ {t l rest : Str}, ciLeadTok t l = some rest →
      ∃ m, l = m ++ rest ∧ List.Forall₂ (fun p c => ciEqChar p c = true) t m := by
  intro t
  induction t with
  | nil =>
    intro l rest h
    have hlr : l = rest := by simpa [ciLeadTok] using h
    exact ⟨[], by simp [hlr], List.Forall₂.nil⟩
  | cons p ps ih =>
    intro l rest h
    cases l with
    | nil => exact absurd h (by simp [ciLeadTok])
    | cons c cs =>
      by_cases hc : ciEqChar p c = true
      · have h' : ciLeadTok ps cs = some rest := by
          simpa [ciLeadTok, hc] using h
        obtain ⟨m, hm, hf⟩ := ih h'
        exact ⟨c :: m, by rw [List.cons_append, hm], List.Forall₂.cons hc hf⟩
      · exact absurd h (by simp [ciLeadTok, hc])

theorem forall₂_mem_word : ∀ {t m : Str}, (∀ p ∈ t, isWordChar p = true) →
    List.Forall₂ (fun p c => ciEqChar p c = true) t m →
    ∀ c ∈ m, isWordChar c = true := by
  intro t
  induction t with
  | nil =>
    intro m _ hf
    cases hf
    simp
  | cons p ps ih =>
    intro m ht hf
    cases hf with
    | cons hpc htail =>
      rename_i c cs
      intro x hx
      rcases List.mem_cons.mp hx with h | h
      · exact h ▸ ciEqChar_word (ht p (List.mem_cons_self _ _)) hpc
      · exact ih (fun q hq => ht q (List.mem_cons_of_mem _ hq)) htail x h

theorem ciLeadTok_full_words {t m : Str} (hne : t ≠ [])
    (ht : ∀ p ∈ t, isWordChar p = true) (h : ciLeadTok t m = some []) :
    m ≠ [] ∧ ∀ c ∈ m, isWordChar c = true := by
  obtain ⟨m', hm, hf⟩ := ciLeadTok_decomp h
  rw [List.append_nil] at hm
  subst hm
  constructor
  · intro hmempty
    subst hmempty
    cases hf
    exact hne rfl
  · exact forall₂_mem_word ht hf

theorem TokMatch_ne_nil {tks : List Str} {m : Str} (htk : plainToks tks)
    (h : TokMatch tks m) : m ≠ [] := by
  cases h with
  | single t m hci =>
    exact (ciLeadTok_full_words (htk t (List.mem_cons_self _ _)).1
      (htk t (List.mem_cons_self _ _)).2 hci).1
  | cons t ts mt w rest hci hts hw hwws hrest =>
    have hmt : mt ≠ [] :=
      (ciLeadTok_full_words (htk t (List.mem_cons_self _ _)).1
        (htk t (List.mem_cons_self _ _)).2 hci).1
    cases hm : mt with
    | nil => exact absurd hm hmt
    | cons x xs => simp [hm]

theorem TokMatch_head_word {tks : List Str} {m : Str} (htk : plainToks tks)
    (h : TokMatch tks m) : ∀ c ∈ m.head?, isWordChar c = true := by
  cases h with
  | single t m hci =>
    have := ciLeadTok_full_words (htk t (List.mem_cons_self _ _)).1
      (htk t (List.mem_cons_self _ _)).2 hci
    intro c hc
    exact this.2 c (List.mem_of_mem_head? hc)
  | cons t ts mt w rest hci hts hw hwws hrest =>
    have hfull := ciLeadTok_full_words (htk t (List.mem_cons_self _ _)).1
      (htk t (List.mem_cons_self _ _)).2 hci
    intro c hc
    cases hm : mt with
    | nil => exact absurd hm hfull.1
    | cons x xs =>
      rw [hm] at hc
      simp only [List.cons_append, List.head?_cons, Option.mem_def,
        Option.some.injEq] at hc
      exact hc ▸ hfull.2 x (by simp [hm])

theorem TokMatch_getLast_word {tks : List Str} {m : Str} (htk : plainToks tks)
    (h : TokMatch tks m) : ∀ c ∈ m.getLast?, isWordChar c = true := by
  induction h with
  | single t m hci =>
    have := ciLeadTok_full_words (htk t (List.mem_cons_self _ _)).1
      (htk t (List.mem_cons_self _ _)).2 hci
    intro c hc
    exact this.2 c (List.mem_of_mem_getLast? hc)
  | cons t ts mt w rest hci hts hw hwws hrest ih =>
    intro c hc
    have htk' : plainToks ts := fun s hs => htk s (List.mem_cons_of_mem _ hs)
    have hrne : rest ≠ [] := TokMatch_ne_nil htk' hrest
    rw [List.append_assoc, List.getLast?_append, List.getLast?_append] at hc
    have hlast : rest.getLast? ≠ none := by
      intro hn
      exact hrne (List.getLast?_eq_none_iff.mp hn)
    rcases hr : rest.getLast? with _ | x
    · exact absurd hr hlast
    · rw [hr] at hc
      simp only [Option.or_some, Option.mem_def, Option.some.injEq] at hc
      exact hc ▸ ih htk' x (by rw [hr]; rfl)

/-- Whitespace equivalence: two strings with the same non-whitespace
    characters in the same order, whose corresponding whitespace runs are both
    non-empty.  `collapseWs` maps a string to a `WE`-equivalent one, and a
    token-match with boundaries survives along `WE`. -/
inductive WE : Str → Str → Prop
  | nil : WE [] []
  | char {c : Char} {l l' : Str} : isJsWs c = false → WE l l' → WE (c :: l) (c :: l')
  | ws {u v l l' : Str} : u ≠ [] → v ≠ [] → (∀ x ∈ u, isJsWs x = true) →
      (∀ x ∈ v, isJsWs x = true) → WE l l' → WE (u ++ l) (v ++ l')

theorem WE_nil_left : ∀ {w z : Str}, WE w z → w = [] → z = [] := by
  intro w z h
  induction h with
  | nil => intro _; rfl
  | char hc hwe ih =>
    intro hcon
    exact absurd hcon (by simp)
  | ws hu hv huw hvw hwe ih =>
    intro hcon
    exact absurd (List.append_eq_nil.mp hcon).1 hu

theorem flushWs_ne_nil {pend : Str} (h : pend ≠ []) : flushWs pend ≠ [] := by
  cases pend with
  | nil => exact absurd rfl h
  | cons c rest => cases rest <;> simp [flushWs]

theorem WE_cwGo : ∀ (l pend : Str), (∀ x ∈ pend, isJsWs x = true) →
    WE (pend.reverse ++ l) (cwGo pend l) := by
  intro l
  induction l with
  | nil =>
    intro pend hpend
    cases hp : pend with
    | nil => exact WE.nil
    | cons c rest =>
      rw [← hp]
      have h1 : pend.reverse ≠ [] := by simp [hp]
      have h2 : flushWs pend ≠ [] := flushWs_ne_nil (by simp [hp])
      have hz : WE (pend.reverse ++ ([] : Str)) (flushWs pend ++ ([] : Str)) :=
        WE.ws h1 h2 (fun x hx => hpend x (List.mem_reverse.mp hx))
          (flushWs_ws hpend) WE.nil
      simpa [cwGo] using hz
  | cons c rest ih =>
    intro pend hpend
    by_cases hws : isJsWs c = true
    · have hdef : cwGo pend (c :: rest) = cwGo (c :: pend) rest := by
        simp [cwGo, hws]
      rw [hdef]
      have := ih (c :: pend) (by
        intro x hx
        rcases List.mem_cons.mp hx with h | h
        · exact h ▸ hws
        · exact hpend x h)
      rw [List.reverse_cons, List.append_assoc] at this
      simpa using this
    · have hdef : cwGo pend (c :: rest) = flushWs pend ++ c :: cwGo [] rest := by
        simp [cwGo, hws]
      rw [hdef]
      have hinner : WE (c :: rest) (c :: cwGo [] rest) :=
        WE.char (by simpa using hws) (by simpa using ih [] (by simp))
      cases hp : pend with
      | nil => simpa [hp, flushWs] using hinner
      | cons x xs =>
        rw [← hp]
        exact WE.ws (by simp [hp]) (flushWs_ne_nil (by simp [hp]))
          (fun x hx => hpend x (List.mem_reverse.mp hx)) (flushWs_ws hpend) hinner

theorem WE_collapseWs (l : Str) : WE l (collapseWs l) := by
  simpa using WE_cwGo l [] (by simp)

theorem WE_split_right :
    ∀ {w z : Str}, WE w z → ∀ {x y : Str}, w = x ++ y →
      (∀ c ∈ y.head?, isJsWs c = false) →
      ∃ z1 z2, z = z1 ++ z2 ∧ WE x z1 ∧ WE y z2 := by
  intro w z h
  induction h with
  | nil =>
    intro x y hxy _
    have hx := (List.append_eq_nil.mp hxy.symm).1
    have hy := (List.append_eq_nil.mp hxy.symm).2
    exact ⟨[], [], rfl, hx ▸ WE.nil, hy ▸ WE.nil⟩
  | char hc hwe ih =>
    rename_i c l l'
    intro x y hxy hy
    cases x with
    | nil =>
      refine ⟨[], c :: l', rfl, WE.nil, ?_⟩
      rw [List.nil_append] at hxy
      exact hxy ▸ WE.char hc hwe
    | cons c' x' =>
      rw [List.cons_append] at hxy
      have hcc : c = c' := (List.cons.injEq _ _ _ _ ▸ hxy).1
      have hl : l = x' ++ y := (List.cons.injEq _ _ _ _ ▸ hxy).2
      obtain ⟨z1, z2, hz, h1, h2⟩ := ih hl hy
      exact ⟨c :: z1, z2, by rw [hz, List.cons_append],
        hcc ▸ WE.char hc h1, h2⟩
  | ws hu hv huw hvw hwe ih =>
    rename_i u v l l'
    intro x y hxy hy
    rcases List.append_eq_append_iff.mp hxy with ⟨a', ha1, ha2⟩ | ⟨c', hc1, hc2⟩
    · -- x = u ++ a', l = a' ++ y
      subst ha1
      obtain ⟨z1, z2, hz, h1, h2⟩ := ih ha2 hy
      exact ⟨v ++ z1, z2, by rw [hz, List.append_assoc],
        WE.ws hu hv huw hvw h1, h2⟩
    · -- u = x ++ c', y = c' ++ l
      cases c' with
      | nil =>
        rw [List.append_nil] at hc1
        rw [List.nil_append] at hc2
        subst hc2
        refine ⟨v, l', rfl, ?_, hwe⟩
        have hx : WE (x ++ ([] : Str)) (v ++ ([] : Str)) :=
          WE.ws (by rw [← hc1]; exact hu) hv (by rw [← hc1]; exact huw) hvw WE.nil
        simpa using hx
      | cons c0 c'' =>
        exfalso
        have hc0 : c0 ∈ u := by
          rw [hc1]
          exact List.mem_append_right _ (List.mem_cons_self _ _)
        have hfalse : isJsWs c0 = false := by
          apply hy
          rw [hc2]
          rfl
        rw [huw c0 hc0] at hfalse
        exact Bool.noConfusion hfalse

theorem WE_split_left :
    ∀ {w z : Str}, WE w z → ∀ {x y : Str}, w = x ++ y →
      (∀ c ∈ x.getLast?, isJsWs c = false) →
      ∃ z1 z2, z = z1 ++ z2 ∧ WE x z1 ∧ WE y z2 := by
  intro w z h
  induction h with
  | nil =>
    intro x y hxy _
    have hx := (List.append_eq_nil.mp hxy.symm).1
    have hy := (List.append_eq_nil.mp hxy.symm).2
    exact ⟨[], [], rfl, hx ▸ WE.nil, hy ▸ WE.nil⟩
  | char hc hwe ih =>
    rename_i c l l'
    intro x y hxy hx
    cases x with
    | nil =>
      refine ⟨[], c :: l', rfl, WE.nil, ?_⟩
      rw [List.nil_append] at hxy
      exact hxy ▸ WE.char hc hwe
    | cons c' x' =>
      rw [List.cons_append] at hxy
      have hcc : c = c' := (List.cons.injEq _ _ _ _ ▸ hxy).1
      have hl : l = x' ++ y := (List.cons.injEq _ _ _ _ ▸ hxy).2
      have hx' : ∀ a ∈ x'.getLast?, isJsWs a = false := by
        cases x' with
        | nil => simp
        | cons b x'' =>
          intro a ha
          apply hx
          rw [List.getLast?_cons_cons]
          exact ha
      obtain ⟨z1, z2, hz, h1, h2⟩ := ih hl hx'
      exact ⟨c :: z1, z2, by rw [hz, List.cons_append],
        hcc ▸ WE.char hc h1, h2⟩
  | ws hu hv huw hvw hwe ih =>
    rename_i u v l l'
    intro x y hxy hx
    rcases List.append_eq_append_iff.mp hxy with ⟨a', ha1, ha2⟩ | ⟨c', hc1, hc2⟩
    · -- x = u ++ a', l = a' ++ y
      subst ha1
      have ha' : ∀ a ∈ a'.getLast?, isJsWs a = false := by
        cases a' with
        | nil => simp
        | cons b a'' =>
          intro a ha
          apply hx
          rw [List.getLast?_append, ha]
          rfl
      obtain ⟨z1, z2, hz, h1, h2⟩ := ih ha2 ha'
      exact ⟨v ++ z1, z2, by rw [hz, List.append_assoc],
        WE.ws hu hv huw hvw h1, h2⟩
    · -- u = x ++ c', y = c' ++ l
      cases hxe : x with
      | nil =>
        subst hxe
        rw [List.nil_append] at hxy
        exact ⟨[], v ++ l', rfl, WE.nil, hxy ▸ WE.ws hu hv huw hvw hwe⟩
      | cons x0 x1 =>
        exfalso
        have hxne : x ≠ [] := by simp [hxe]
        have hlast : x.getLast? = some (x.getLast hxne) :=
          List.getLast?_eq_getLast x hxne
        have hmem : x.getLast hxne ∈ x := List.getLast_mem hxne
        have hinu : x.getLast hxne ∈ u := by
          rw [hc1]
          exact List.mem_append_left _ hmem
        have h1 := hx _ (by rw [hlast]; rfl)
        rw [huw _ hinu] at h1
        exact Bool.noConfusion h1

theorem WE_nonws_eq : ∀ {x z : Str}, WE x z →
    (∀ c ∈ x, isJsWs c = false) → z = x := by
  intro x z h
  induction h with
  | nil => intro _; rfl
  | char hc hwe ih =>
    intro hx
    rw [ih (fun a ha => hx a (List.mem_cons_of_mem _ ha))]
  | ws hu hv huw hvw hwe ih =>
    rename_i u v l l'
    intro hx
    exfalso
    cases hue : u with
    | nil => exact hu hue
    | cons c0 u' =>
      have hmem : c0 ∈ u ++ l := by
        rw [hue]
        exact List.mem_append_left _ (List.mem_cons_self _ _)
      have hfalse := hx c0 hmem
      rw [huw c0 (by rw [hue]; exact List.mem_cons_self _ _)] at hfalse
      exact Bool.noConfusion hfalse

theorem WE_allws : ∀ {x z : Str}, WE x z → x ≠ [] →
    (∀ c ∈ x, isJsWs c = true) → z ≠ [] ∧ ∀ c ∈ z, isJsWs c = true := by
  intro x z h
  induction h with
  | nil => intro hne _; exact absurd rfl hne
  | char hc hwe ih =>
    intro _ hx
    exfalso
    rw [hx _ (List.mem_cons_self _ _)] at hc
    exact Bool.noConfusion hc
  | ws hu hv huw hvw hwe ih =>
    rename_i u v l l'
    intro _ hx
    cases hle : l with
    | nil =>
      subst hle
      have hl' : l' = [] := WE_nil_left hwe rfl
      subst hl'
      refine ⟨by simpa using hv, ?_⟩
      intro c hc
      rw [List.append_nil] at hc
      exact hvw c hc
    | cons e l0 =>
      have hlne : l ≠ [] := by simp [hle]
      have hlw : ∀ c ∈ l, isJsWs c = true := fun c hc =>
        hx c (List.mem_append_right _ hc)
      obtain ⟨h1, h2⟩ := ih hlne hlw
      constructor
      · cases hve : v with
        | nil => exact absurd hve hv
        | cons q qs => simp [hve]
      · intro c hc
        rcases List.mem_append.mp hc with h | h
        · exact hvw c h
        · exact h2 c h

theorem WE_last : ∀ {a za : Str}, WE a za →
    (a.getLast? = none ∧ za.getLast? = none) ∨
    (∃ x y, a.getLast? = some x ∧ za.getLast? = some y ∧
      (x = y ∨ (isJsWs x = true ∧ isJsWs y = true))) := by
  intro a za h
  induction h with
  | nil => exact Or.inl ⟨rfl, rfl⟩
  | char hc hwe ih =>
    rename_i c l l'
    rcases ih with ⟨h1, h2⟩ | ⟨x, y, h1, h2, h3⟩
    · have hl : l = [] := List.getLast?_eq_none_iff.mp h1
      have hl' : l' = [] := List.getLast?_eq_none_iff.mp h2
      subst hl; subst hl'
      exact Or.inr ⟨c, c, rfl, rfl, Or.inl rfl⟩
    · refine Or.inr ⟨x, y, ?_, ?_, h3⟩
      · rw [show c :: l = [c] ++ l by rfl, List.getLast?_append, h1]
        rfl
      · rw [show c :: l' = [c] ++ l' by rfl, List.getLast?_append, h2]
        rfl
  | ws hu hv huw hvw hwe ih =>
    rename_i u v l l'
    rcases ih with ⟨h1, h2⟩ | ⟨x, y, h1, h2, h3⟩
    · have hl : l = [] := List.getLast?_eq_none_iff.mp h1
      have hl' : l' = [] := List.getLast?_eq_none_iff.mp h2
      subst hl; subst hl'
      refine Or.inr ⟨u.getLast hu, v.getLast hv, ?_, ?_, Or.inr ⟨?_, ?_⟩⟩
      · rw [List.append_nil]
        exact List.getLast?_eq_getLast u hu
      · rw [List.append_nil]
        exact List.getLast?_eq_getLast v hv
      · exact huw _ (List.getLast_mem hu)
      · exact hvw _ (List.getLast_mem hv)
    · refine Or.inr ⟨x, y, ?_, ?_, h3⟩
      · rw [List.getLast?_append, h1]
        rfl
      · rw [List.getLast?_append, h2]
        rfl

theorem WE_head : ∀ {a za : Str}, WE a za →
    (a.head? = none ∧ za.head? = none) ∨
    (∃ x y, a.head? = some x ∧ za.head? = some y ∧
      (x = y ∨ (isJsWs x = true ∧ isJsWs y = true))) := by
  intro a za h
  cases h with
  | nil => exact Or.inl ⟨rfl, rfl⟩
  | char hc hwe =>
    rename_i c l l'
    exact Or.inr ⟨c, c, rfl, rfl, Or.inl rfl⟩
  | ws hu hv huw hvw hwe =>
    rename_i u v l l'
    cases hue : u with
    | nil => exact absurd hue hu
    | cons c0 u' =>
      cases hve : v with
      | nil => exact absurd hve hv
      | cons d0 v' =>
        refine Or.inr ⟨c0, d0, rfl, rfl, Or.inr ⟨?_, ?_⟩⟩
        · exact huw c0 (by rw [hue]; exact List.mem_cons_self _ _)
        · exact hvw d0 (by rw [hve]; exact List.mem_cons_self _ _)

theorem WE_last_nonword {a za : Str} (h : WE a za)
    (ha : ∀ c ∈ a.getLast?, isWordChar c = false) :
    ∀ c ∈ za.getLast?, isWordChar c = false := by
  intro c hc
  rcases WE_last h with ⟨_, h2⟩ | ⟨x, y, h1, h2, h3⟩
  · rw [h2] at hc
    simp at hc
  · rw [h2] at hc
    simp only [Option.mem_def, Option.some.injEq] at hc
    subst hc
    rcases h3 with h3 | ⟨_, hy⟩
    · exact h3 ▸ ha x (by rw [h1]; rfl)
    · exact ws_not_word hy

theorem WE_head_nonword {a za : Str} (h : WE a za)
    (ha : ∀ c ∈ a.head?, isWordChar c = false) :
    ∀ c ∈ za.head?, isWordChar c = false := by
  intro c hc
  rcases WE_head h with ⟨_, h2⟩ | ⟨x, y, h1, h2, h3⟩
  · rw [h2] at hc
    simp at hc
  · rw [h2] at hc
    simp only [Option.mem_def, Option.some.injEq] at hc
    subst hc
    rcases h3 with h3 | ⟨_, hy⟩
    · exact h3 ▸ ha x (by rw [h1]; rfl)
    · exact ws_not_word hy

theorem TokMatch_WE : ∀ {tks : List Str} {m : Str}, TokMatch tks m →
    plainToks tks → ∀ {zm : Str}, WE m zm → TokMatch tks zm := by
  intro tks m h
  induction h with
  | single t m hci =>
    intro htk zm hwe
    have hfull := ciLeadTok_full_words (htk t (List.mem_cons_self _ _)).1
      (htk t (List.mem_cons_self _ _)).2 hci
    have hnws : ∀ c ∈ m, isJsWs c = false := fun c hc =>
      word_not_ws (hfull.2 c hc)
    rw [WE_nonws_eq hwe hnws]
    exact TokMatch.single t m hci
  | cons t ts mt w rest hci hts hw hwws hrest ih =>
    intro htk zm hwe
    rw [List.append_assoc] at hwe
    have hfull := ciLeadTok_full_words (htk t (List.mem_cons_self _ _)).1
      (htk t (List.mem_cons_self _ _)).2 hci
    have hmtnws : ∀ c ∈ mt, isJsWs c = false := fun c hc =>
      word_not_ws (hfull.2 c hc)
    have hmtlast : ∀ c ∈ mt.getLast?, isJsWs c = false := fun c hc =>
      hmtnws c (List.mem_of_mem_getLast? hc)
    obtain ⟨z1, z23, hz, h1, h23⟩ := WE_split_left hwe rfl hmtlast
    have hz1 : z1 = mt := WE_nonws_eq h1 hmtnws
    have htk' : plainToks ts := fun s hs => htk s (List.mem_cons_of_mem _ hs)
    have hresthead : ∀ c ∈ rest.head?, isJsWs c = false := fun c hc =>
      word_not_ws (TokMatch_head_word htk' hrest c hc)
    obtain ⟨zw, zr, hz23, hzw, hzr⟩ := WE_split_right h23 rfl hresthead
    obtain ⟨hzwne, hzwws⟩ := WE_allws hzw hw hwws
    rw [hz, hz1, hz23, ← List.append_assoc]
    exact TokMatch.cons t ts mt zw zr hci hts hzwne hzwws (ih htk' hzr)

theorem head?_append_of_ne_nil {m x : Str} (hm : m ≠ []) :
    (m ++ x).head? = m.head? := by
  cases m with
  | nil => exact absurd rfl hm
  | cons c rest => rfl

theorem Occ_WE {tks : List Str} {l z : Str} (htk : plainToks tks)
    (h : Occ tks l) (hwe : WE l z) : Occ tks z := by
  obtain ⟨a, m, b, hl, hm, hprev, hnext⟩ := h
  subst hl
  rw [List.append_assoc] at hwe
  have hmne := TokMatch_ne_nil htk hm
  have hmbhead : ∀ c ∈ (m ++ b).head?, isJsWs c = false := by
    rw [head?_append_of_ne_nil hmne]
    intro c hc
    exact word_not_ws (TokMatch_head_word htk hm c hc)
  obtain ⟨za, zmb, hz, hwa, hwmb⟩ := WE_split_right hwe rfl hmbhead
  have hmlast : ∀ c ∈ m.getLast?, isJsWs c = false := fun c hc =>
    word_not_ws (TokMatch_getLast_word htk hm c hc)
  obtain ⟨zm, zb, hzmb, hwm, hwb⟩ := WE_split_left hwmb rfl hmlast
  refine ⟨za, zm, zb, ?_, TokMatch_WE hm htk hwm,
    WE_last_nonword hwa hprev, WE_head_nonword hwb hnext⟩
  rw [hz, hzmb, List.append_assoc]

theorem dropWhile_append_of_head {a rest : Str}
    (hr : ∀ c ∈ rest.head?, isJsWs c = false) :
    List.dropWhile isJsWs (a ++ rest) = List.dropWhile isJsWs a ++ rest := by
  rw [List.dropWhile_append]
  by_cases h : (List.dropWhile isJsWs a).isEmpty
  · rw [if_pos h]
    rw [List.isEmpty_iff] at h
    rw [h, List.nil_append]
    exact dropWhile_eq_self_of_head (fun x hx => by simp [hr x hx])
  · rw [if_neg h]

theorem Occ_trim {tks : List Str} {l : Str} (htk : plainToks tks)
    (h : Occ tks l) : Occ tks (trimStr l) := by
  obtain ⟨a, m, b, hl, hm, hprev, hnext⟩ := h
  subst hl
  have hmne := TokMatch_ne_nil htk hm
  have hmrevne : m.reverse ≠ [] := by simpa using hmne
  have hmheadnws : ∀ c ∈ m.head?, isJsWs c = false := fun c hc =>
    word_not_ws (TokMatch_head_word htk hm c hc)
  have hmlastnws : ∀ c ∈ m.getLast?, isJsWs c = false := fun c hc =>
    word_not_ws (TokMatch_getLast_word htk hm c hc)
  have hrev : (a ++ m ++ b).reverse = b.reverse ++ (m.reverse ++ a.reverse) := by
    rw [List.reverse_append, List.reverse_append]
  have hstep1 : List.dropWhile isJsWs ((a ++ m ++ b).reverse) =
      List.dropWhile isJsWs b.reverse ++ (m.reverse ++ a.reverse) := by
    rw [hrev]
    apply dropWhile_append_of_head
    rw [head?_append_of_ne_nil hmrevne, List.head?_reverse]
    exact hmlastnws
  have hstep2 : (List.dropWhile isJsWs ((a ++ m ++ b).reverse)).reverse =
      a ++ (m ++ (List.dropWhile isJsWs b.reverse).reverse) := by
    rw [hstep1, List.reverse_append, List.reverse_append, List.reverse_reverse,
      List.reverse_reverse, List.append_assoc]
  have hstep3 : trimStr (a ++ m ++ b) =
      List.dropWhile isJsWs a ++
        (m ++ (List.dropWhile isJsWs b.reverse).reverse) := by
    unfold trimStr
    rw [hstep2]
    apply dropWhile_append_of_head
    rw [head?_append_of_ne_nil hmne]
    exact hmheadnws
  refine ⟨List.dropWhile isJsWs a, m, (List.dropWhile isJsWs b.reverse).reverse,
    by rw [hstep3, List.append_assoc], hm, ?_, ?_⟩
  · intro c hc
    by_cases ha : List.dropWhile isJsWs a = []
    · rw [ha] at hc
      simp at hc
    · have hsuf : List.dropWhile isJsWs a <:+ a := List.dropWhile_suffix _
      rw [getLast?_of_suffix hsuf ha] at hc
      exact hprev c hc
  · intro c hc
    by_cases hb : List.dropWhile isJsWs b.reverse = []
    · rw [hb] at hc
      simp at hc
    · have hsuf : List.dropWhile isJsWs b.reverse <:+ b.reverse :=
        List.dropWhile_suffix _
      obtain ⟨t, ht⟩ := hsuf
      have hb2 : b = (List.dropWhile isJsWs b.reverse).reverse ++ t.reverse := by
        have := congrArg List.reverse ht
        rw [List.reverse_append] at this
        simpa using this.symm
      have hbne : (List.dropWhile isJsWs b.reverse).reverse ≠ [] := by
        simpa using hb
      have hhead : b.head? = ((List.dropWhile isJsWs b.reverse).reverse).head? := by
        conv_lhs => rw [hb2]
        exact head?_append_of_ne_nil hbne
      rw [← hhead] at hc
      exact hnext c hc

/-- Number of positions of the text at which the pattern
    `\b t1 \s+ … tk \b` matches (occurrences may overlap). -/
def occCount (tks : List Str) (prev : Option Char) : Str → ℕ
  | [] => if (occAt tks prev []).isSome then 1 else 0
  | c :: r => (if (occAt tks prev (c :: r)).isSome then 1 else 0) +
      occCount tks (some c) r

/-- C10 counterexample: for the name `"a a"` the summary `"a a a"` contains
    two (overlapping) word-boundary case-insensitive occurrences, yet the
    output of `stripNameFromSummary` contains none — the removal of the first
    match may destroy a later overlapping occurrence. -/
theorem stripName_loses_overlapping_occurrence :
    occCount (wsSplitGo [] (trimStr (lit (r"a a")))) none (lit (r"a a a")) = 2 ∧
    stripNameFromSummary (lit (r"a a a")) (lit (r"a a")) = lit (r"a") ∧
    occCount (wsSplitGo [] (trimStr (lit (r"a a")))) none
      (stripNameFromSummary (lit (r"a a a")) (lit (r"a a"))) = 0 := by
  refine ⟨by decide, by decide, by decide⟩

/-- C10 (amended): `stripNameFromSummary` removes only the first
    word-boundary, case-insensitive occurrence of the full name (for plain
    names of letters, digits and spaces): every occurrence disjoint from the
    removed first match — beginning strictly after its end — still occurs in
    the output (occurrences overlapping the removed match may be lost); and
    when the name is empty or whitespace-only the output is exactly the
    trimmed summary. -/
theorem stripNameFromSummary_spec (summary fullName pre rest : Str) :
    (trimStr fullName = [] →
      stripNameFromSummary summary fullName = trimStr summary) ∧
    (plainToks (wsSplitGo [] (trimStr fullName)) →
     wsSplitGo [] (trimStr fullName) ≠ [] →
     findStrip (wsSplitGo [] (trimStr fullName)) none summary = some (pre, rest) →
     (∃ a m b, rest = a ++ m ++ b ∧ a ≠ [] ∧
        TokMatch (wsSplitGo [] (trimStr fullName)) m ∧
        (∀ c ∈ a.getLast?, isWordChar c = false) ∧
        (∀ c ∈ b.head?, isWordChar c = false)) →
     Occ (wsSplitGo [] (trimStr fullName))
       (stripNameFromSummary summary fullName)) := by
  constructor
  · intro h
    simp [stripNameFromSummary, h, wsSplitGo]
  · intro htk hne hfound hlater
    obtain ⟨a, m, b, hrest, hane, hm, hprev, hnext⟩ := hlater
    have hout : stripNameFromSummary summary fullName =
        trimStr (collapseWs (pre ++ rest)) := by
      unfold stripNameFromSummary
      simp only [if_neg hne, hfound]
    rw [hout]
    have hocc : Occ (wsSplitGo [] (trimStr fullName)) (pre ++ rest) := by
      refine ⟨pre ++ a, m, b, ?_, hm, ?_, hnext⟩
      · rw [hrest]
        simp [List.append_assoc]
      · intro c hc
        rw [List.getLast?_append] at hc
        cases hae : a with
        | nil => exact absurd hae hane
        | cons a0 a1 =>
          have hsome : a.getLast? = some (a.getLast (by simp [hae])) :=
            List.getLast?_eq_getLast a (by simp [hae])
          rw [hsome] at hc
          simp only [Option.or_some, Option.mem_def, Option.some.injEq] at hc
          exact hc ▸ hprev _ (by rw [hsome]; rfl)
    exact Occ_trim htk (Occ_WE htk hocc (WE_collapseWs (pre ++ rest)))

theorem stripNameFromSummary_spec_witness :
    stripNameFromSummary (lit (r" s ")) [' '] = trimStr (lit (r" s ")) ∧
    Occ (wsSplitGo [] (trimStr (lit (r"ada"))))
      (stripNameFromSummary (lit (r"x ada y ada z")) (lit (r"ada"))) :=
  ⟨(stripNameFromSummary_spec (lit (r" s ")) [' '] [] []).1 (by decide),
   (stripNameFromSummary_spec (lit (r"x ada y ada z")) (lit (r"ada"))
      (lit (r"x ")) (lit (r" y ada z"))).2
     (by unfold plainToks; decide) (by decide) (by decide)
     ⟨lit (r" y "), lit (r"ada"), lit (r" z"), by decide, by decide,
      TokMatch.single _ _ (by decide), by decide, by decide⟩⟩

end JobMatcher
